import Mathlib

/-!
The mailio base64 codec (`src/src/base64.cpp`).

A shallow embedding of `mailio::base64::encode` and `mailio::base64::decode`
together with the properties of the codec that are stated about them.

* C++ strings are lists of bytes (`Byte = Fin 256`), a `vector<string>` is a list of
  such lists.
* `string::size_type` is a 64-bit unsigned integer: the subtractions and additions the
  program performs on it are modelled on `Nat` with an explicit reduction modulo `2^64`.
* The mutable locals of `encode` / `decode` are the fields of `EncState` / `DecState`,
  and every loop body is a function from state to state.
* `throw codec_error(...)` is the `Except.error` result.
-/

namespace mailio

/-! ## Bytes and machine arithmetic -/

/-- One `char` / `unsigned char` of the program, a value in `0..255`. -/
abbrev Byte := Fin 256

/-- Number of values of `std::string::size_type` (a 64-bit `size_t`). -/
def SZ : Nat := 2 ^ 64

/-- Unsigned `size_type` subtraction `a - b`, which wraps around modulo `2^64`. -/
def subSz (a b : Nat) : Nat := (a % SZ + SZ - b % SZ) % SZ

/-- Unsigned `size_type` addition `a + b`, which wraps around modulo `2^64`. -/
def addSz (a b : Nat) : Nat := (a + b) % SZ

/-- The value `std::string::npos`, the largest `size_type`. -/
def npos : Nat := SZ - 1

/-- Conversion of an integer expression to `unsigned char` (reduction modulo 256). -/
def toByte (n : Nat) : Byte := Fin.ofNat n

/-- The bytes of a string literal, one byte per character. -/
def bytes (s : String) : List Byte := s.toList.map (fun ch => toByte ch.toNat)

/-! ## Constants -/

/-- The member `base64::CHARSET`. -/
def CHARSET : List Byte :=
  bytes "ABCDEFGHIJKLMNOPQRSTUVWXYZabcdefghijklmnopqrstuvwxyz0123456789+/"

/-- Modelled from the spec: `codec::EQUAL_CHAR`, declared in the codec header that is not
part of the sources; the spec names `=` as the padding character. -/
def EQUAL_CHAR : Byte := 61

/-- Modelled from the spec: `codec::PLUS_CHAR`, declared in the codec header that is not
part of the sources; the alphabet character `+`. -/
def PLUS_CHAR : Byte := 43

/-- Modelled from the spec: `codec::SLASH_CHAR`, declared in the codec header that is not
part of the sources; the alphabet character `/`. -/
def SLASH_CHAR : Byte := 47

/-- Modelled from the spec: `codec::SPACE_STR`, declared in the codec header that is not
part of the sources; the fold marker is made of two space characters, so this is the
one-character string holding a space. -/
def SPACE_STR : List Byte := [32]

/-- The expression `CHARSET[i]`; every index the program uses is below 64. -/
def charsetAt (i : Nat) : Byte := CHARSET.getD i 0

/-- The expression `CHARSET.find(ch)`: position of the first occurrence of `ch`, or `npos`. -/
def charsetFind (ch : Byte) : Nat :=
  if CHARSET.indexOf ch < CHARSET.length then CHARSET.indexOf ch else npos

/-- Function `isalnum` of the C library in the default "C" locale. -/
def isalnum (ch : Byte) : Bool :=
  (48 ≤ ch.val && ch.val ≤ 57) || (65 ≤ ch.val && ch.val ≤ 90) || (97 ≤ ch.val && ch.val ≤ 122)

/-- The member `base64::is_allowed`. -/
def is_allowed (ch : Byte) : Bool :=
  isalnum ch || ch == PLUS_CHAR || ch == SLASH_CHAR

/-! ## The two fixed-size local arrays -/

/-- An `unsigned char[3]` array (`group_8bit`). -/
structure Group3 where
  a0 : Byte
  a1 : Byte
  a2 : Byte
deriving DecidableEq, Repr

/-- An `unsigned char[4]` array (`group_6bit`). -/
structure Group4 where
  a0 : Byte
  a1 : Byte
  a2 : Byte
  a3 : Byte
deriving DecidableEq, Repr

/-- Assignment `g[i] = v` on a three-element array (indices above 2 are never written). -/
def Group3.set (g : Group3) (i : Nat) (v : Byte) : Group3 :=
  match i with
  | 0 => { g with a0 := v }
  | 1 => { g with a1 := v }
  | 2 => { g with a2 := v }
  | _ => g

/-- Read `g[i]` on a three-element array. -/
def Group3.get (g : Group3) (i : Nat) : Byte :=
  match i with
  | 0 => g.a0
  | 1 => g.a1
  | 2 => g.a2
  | _ => 0

/-- The elements of a three-element array in index order. -/
def Group3.toList (g : Group3) : List Byte := [g.a0, g.a1, g.a2]

/-- Assignment `g[i] = v` on a four-element array (indices above 3 are never written). -/
def Group4.set (g : Group4) (i : Nat) (v : Byte) : Group4 :=
  match i with
  | 0 => { g with a0 := v }
  | 1 => { g with a1 := v }
  | 2 => { g with a2 := v }
  | 3 => { g with a3 := v }
  | _ => g

/-- Read `g[i]` on a four-element array. -/
def Group4.get (g : Group4) (i : Nat) : Byte :=
  match i with
  | 0 => g.a0
  | 1 => g.a1
  | 2 => g.a2
  | 3 => g.a3
  | _ => 0

/-- The loop `for (int i = n; i < 3; i++) group_8bit[i] = 0`. -/
def Group3.zeroFrom (g : Group3) (n : Nat) : Group3 :=
  (List.range' n (3 - n)).foldl (fun acc i => acc.set i 0) g

/-- The loop `for (int i = n; i < 4; i++) group_6bit[i] = 0`. -/
def Group4.zeroFrom (g : Group4) (n : Nat) : Group4 :=
  (List.range' n (4 - n)).foldl (fun acc i => acc.set i 0) g

/-- The four assignments computing `group_6bit` from `group_8bit` in `encode`. -/
def pack (g : Group3) : Group4 :=
  { a0 := toByte ((g.a0.val &&& 0xfc) >>> 2)
    a1 := toByte (((g.a0.val &&& 0x03) <<< 4) + ((g.a1.val &&& 0xf0) >>> 4))
    a2 := toByte (((g.a1.val &&& 0x0f) <<< 2) + ((g.a2.val &&& 0xc0) >>> 6))
    a3 := toByte (g.a2.val &&& 0x3f) }

/-- The loop `group_6bit[i] = static_cast<unsigned char>(CHARSET.find(group_6bit[i]))`. -/
def findAll (g : Group4) : Group4 :=
  { a0 := toByte (charsetFind g.a0)
    a1 := toByte (charsetFind g.a1)
    a2 := toByte (charsetFind g.a2)
    a3 := toByte (charsetFind g.a3) }

/-- The three assignments computing `group_8bit` from `group_6bit` in `decode`. -/
def unpack (g : Group4) : Group3 :=
  { a0 := toByte ((g.a0.val <<< 2) + ((g.a1.val &&& 0x30) >>> 4))
    a1 := toByte (((g.a1.val &&& 0xf) <<< 4) + ((g.a2.val &&& 0x3c) >>> 2))
    a2 := toByte (((g.a2.val &&& 0x3) <<< 6) + g.a3.val) }

/-! ## The codec object -/

/-- The data members of `mailio::base64`: the two line policies. -/
structure base64 where
  line1_policy_ : Nat
  lines_policy_ : Nat
deriving DecidableEq, Repr

/-! ## `base64::encode` -/

/-- The locals of `encode` that live across loop iterations. -/
structure EncState where
  enc_text : List (List Byte)
  group_8bit : Group3
  count_3_chars : Nat
  line : List Byte
  line_len : Nat
  is_first_line : Bool
  delim_pos : Nat
deriving DecidableEq, Repr

/-- The local constant `is_folding`. -/
def is_folding (c : base64) : Bool := c.line1_policy_ != c.lines_policy_

/-- The local constant `FOLD_STR`. -/
def FOLD_STR (c : base64) : List Byte :=
  if is_folding c then SPACE_STR ++ SPACE_STR else []

/-- The local constant `DELIMITERS` (declared by `encode`, never read). -/
def DELIMITERS : List Byte := bytes " ,;"

/-- The lambda `add_new_line`; `substr(0, n)` is `take n`, `substr(n)` is `drop n`. -/
def add_new_line (folding : Bool) (s : EncState) : EncState :=
  if folding && decide (s.delim_pos > 0) then
    { s with
      enc_text := s.enc_text ++ [s.line.take (s.delim_pos + 1)]
      line := s.line.drop (s.delim_pos + 1)
      line_len := subSz s.line_len (subSz s.delim_pos 1)
      delim_pos := 0 }
  else
    { s with
      enc_text := s.enc_text ++ [s.line]
      line := []
      line_len := 0 }

/-- The expression `line1_policy_ - reserved - 2 - FOLD_STR.length()`. -/
def threshold1 (c : base64) (reserved : Nat) : Nat :=
  subSz (subSz (subSz c.line1_policy_ reserved) 2) (FOLD_STR c).length

/-- The expression `lines_policy_ - reserved - 2 - FOLD_STR.length()`. -/
def threshold2 (c : base64) (reserved : Nat) : Nat :=
  subSz (subSz (subSz c.lines_policy_ reserved) 2) (FOLD_STR c).length

/-- The `if ... else if ...` statement that closes a line; it occurs three times in
`encode` with the same text (after a character of the main loop, before each symbol of
the last group, before each padding character). -/
def break_line (c : base64) (reserved : Nat) (s : EncState) : EncState :=
  if s.is_first_line && decide (s.line_len ≥ threshold1 c reserved) then
    add_new_line (is_folding c) { s with is_first_line := false }
  else if s.line_len ≥ threshold2 c reserved then
    add_new_line (is_folding c) { s with line := FOLD_STR c ++ s.line }
  else s

/-- The body of the main loop of `encode` for the character `ch`. -/
def encode_char (c : base64) (reserved : Nat) (s : EncState) (ch : Byte) : EncState :=
  let s1 : EncState :=
    { s with
      group_8bit := s.group_8bit.set s.count_3_chars ch
      count_3_chars := s.count_3_chars + 1 }
  let s2 : EncState :=
    if s1.count_3_chars = 3 then
      let g6 := pack s1.group_8bit
      { s1 with
        line := s1.line ++
          [charsetAt g6.a0.val, charsetAt g6.a1.val, charsetAt g6.a2.val, charsetAt g6.a3.val]
        count_3_chars := 0
        line_len := addSz s1.line_len 4 }
    else s1
  break_line c reserved s2

/-- The body of the loop that emits symbol `i` of the last, partial group. -/
def encode_symbol (c : base64) (reserved : Nat) (g6 : Group4) (s : EncState) (i : Nat) :
    EncState :=
  let s1 := break_line c reserved s
  { s1 with line := s1.line ++ [charsetAt (g6.get i).val], line_len := addSz s1.line_len 1 }

/-- The body of the `while (count_3_chars++ < 3)` loop that emits one padding character;
the increment of the loop test is part of it. -/
def encode_pad (c : base64) (reserved : Nat) (s : EncState) : EncState :=
  let s1 := break_line c reserved { s with count_3_chars := s.count_3_chars + 1 }
  { s1 with line := s1.line ++ [EQUAL_CHAR], line_len := addSz s1.line_len 1 }

/-- The block `if (count_3_chars > 0) { ... }` that encodes the remaining characters. -/
def encode_rest (c : base64) (reserved : Nat) (s : EncState) : EncState :=
  if s.count_3_chars > 0 then
    let g8 := s.group_8bit.zeroFrom s.count_3_chars
    let g6 := pack g8
    let s1 := (List.range (s.count_3_chars + 1)).foldl
      (encode_symbol c reserved g6) { s with group_8bit := g8 }
    let s2 := (List.range (3 - s.count_3_chars)).foldl
      (fun st _ => encode_pad c reserved st) s1
    { s2 with count_3_chars := s2.count_3_chars + 1 }
  else s

/-- The values of the locals of `encode` before the main loop. -/
def EncState.init : EncState :=
  { enc_text := []
    group_8bit := ⟨0, 0, 0⟩
    count_3_chars := 0
    line := []
    line_len := 0
    is_first_line := true
    delim_pos := 0 }

/-- The state of `encode` after the main loop and the block for the remaining characters. -/
def encode_state (c : base64) (text : List Byte) (reserved : Nat) : EncState :=
  encode_rest c reserved (text.foldl (encode_char c reserved) EncState.init)

/-- The end of `encode`: `if (!line.empty()) enc_text.push_back(line); return enc_text;`. -/
def EncState.result (s : EncState) : List (List Byte) :=
  if s.line ≠ [] then s.enc_text ++ [s.line] else s.enc_text

/-- The member `base64::encode`. -/
def encode (c : base64) (text : List Byte) (reserved : Nat) : List (List Byte) :=
  (encode_state c text reserved).result

/-! ## `base64::decode` -/

/-- The two failures of `decode`: `codec_error("Bad line policy.")` and
`codec_error("Bad character ...")` with the character it names. -/
inductive codec_error where
  | bad_line_policy : codec_error
  | bad_character (ch : Byte) : codec_error
deriving DecidableEq, Repr

deriving instance DecidableEq for Except

/-- The locals of `decode`; they are declared outside the loop over the lines. -/
structure DecState where
  dec_text : List Byte
  group_6bit : Group4
  count_4_chars : Nat
deriving DecidableEq, Repr

/-- The body of the loop over the characters of a line, for the character `ch`. -/
def decode_char (s : DecState) (ch : Byte) : Except codec_error DecState :=
  if !is_allowed ch then .error (.bad_character ch)
  else
    let g := s.group_6bit.set s.count_4_chars ch
    let n := s.count_4_chars + 1
    if n = 4 then
      let g6 := findAll g
      let g8 := unpack g6
      .ok { dec_text := s.dec_text ++ g8.toList, group_6bit := g6, count_4_chars := 0 }
    else
      .ok { s with group_6bit := g, count_4_chars := n }

/-- The loop `for (ch = 0; ch < line.length() && line[ch] != EQUAL_CHAR; ch++)`. -/
def decode_scan : DecState → List Byte → Except codec_error DecState
  | s, [] => .ok s
  | s, ch :: rest =>
    if ch = EQUAL_CHAR then .ok s
    else
      match decode_char s ch with
      | .error e => .error e
      | .ok s1 => decode_scan s1 rest

/-- The block `if (count_4_chars > 0) { ... }` that decodes the remaining characters of a
line; it leaves `count_4_chars` as it is. -/
def decode_rest (s : DecState) : DecState :=
  if s.count_4_chars > 0 then
    let g6 := findAll (s.group_6bit.zeroFrom s.count_4_chars)
    let g8 := unpack g6
    { s with
      dec_text := s.dec_text ++ g8.toList.take (s.count_4_chars - 1)
      group_6bit := g6 }
  else s

/-- The body of the loop over the lines. -/
def decode_line (c : base64) (s : DecState) (line : List Byte) : Except codec_error DecState :=
  if line.length > subSz c.lines_policy_ 2 then .error .bad_line_policy
  else
    match decode_scan s line with
    | .error e => .error e
    | .ok s1 => .ok (decode_rest s1)

/-- The loop `for (const auto& line : text)`. -/
def decode_lines (c : base64) : DecState → List (List Byte) → Except codec_error DecState
  | s, [] => .ok s
  | s, line :: rest =>
    match decode_line c s line with
    | .error e => .error e
    | .ok s1 => decode_lines c s1 rest

/-- The values of the locals of `decode` before the loop (the array is written before it
is read). -/
def DecState.init : DecState :=
  { dec_text := [], group_6bit := ⟨0, 0, 0, 0⟩, count_4_chars := 0 }

/-- The member `base64::decode(const vector<string>&)`. -/
def decode (c : base64) (text : List (List Byte)) : Except codec_error (List Byte) :=
  match decode_lines c DecState.init text with
  | .error e => .error e
  | .ok s => .ok s.dec_text

/-- The member `base64::decode(const string&)`. -/
def decode_string (c : base64) (text : List Byte) : Except codec_error (List Byte) :=
  decode c [text]

/-! ## Reference definitions: standard base64 (RFC 4648) -/

/-- Character of the standard base64 alphabet with value `i`:
`A`-`Z` for 0-25, `a`-`z` for 26-51, `0`-`9` for 52-61, `+` for 62 and `/` for 63. -/
def alphabet (i : Nat) : Byte :=
  if i < 26 then toByte (65 + i)
  else if i < 52 then toByte (97 + (i - 26))
  else if i < 62 then toByte (48 + (i - 52))
  else if i = 62 then 43
  else 47

/-- The 24-bit number made of three bytes, first byte in bits 23-16. -/
def group24 (b0 b1 b2 : Byte) : Nat := b0.val * 65536 + b1.val * 256 + b2.val

/-- Symbol `k` of a 24-bit group: `k = 0` is bits 23-18, `k = 3` is bits 5-0. -/
def sextet (n k : Nat) : Byte := alphabet (n / 2 ^ (18 - 6 * k) % 64)

/-- Standard base64 text of a byte string with `=` padding: four symbols for each group of
three bytes; a last group of one byte gives two symbols and `==`, a last group of two bytes
gives three symbols and `=`. -/
def stdBase64 : List Byte → List Byte
  | b0 :: b1 :: b2 :: rest =>
    sextet (group24 b0 b1 b2) 0 :: sextet (group24 b0 b1 b2) 1 ::
      sextet (group24 b0 b1 b2) 2 :: sextet (group24 b0 b1 b2) 3 :: stdBase64 rest
  | [b0, b1] =>
    [sextet (group24 b0 b1 0) 0, sextet (group24 b0 b1 0) 1, sextet (group24 b0 b1 0) 2, 61]
  | [b0] => [sextet (group24 b0 0 0) 0, sextet (group24 b0 0 0) 1, 61, 61]
  | [] => []

/-- Length of the padded base64 text of `n` bytes: `4 * ceil(n / 3)`. -/
def paddedLen (n : Nat) : Nat := 4 * ((n + 2) / 3)


/-- The four symbols of the group of three bytes `b0 b1 b2`. -/
def quad (b0 b1 b2 : Byte) : List Byte :=
  [sextet (group24 b0 b1 b2) 0, sextet (group24 b0 b1 b2) 1, sextet (group24 b0 b1 b2) 2,
    sextet (group24 b0 b1 b2) 3]

/-- Length of the fold marker as the specification gives it: 2 when the two limits differ
and 0 when they are equal. -/
def fold_marker_length (c : base64) : Nat :=
  if c.line1_policy_ ≠ c.lines_policy_ then 2 else 0

/-! ## Auxiliary notions for the proofs -/

/-- Shape of the first closed line when the thresholds are multiples of 4: a run of
allowed characters that is either as long as the first-line threshold and unmarked, or as
long as the other threshold and marked (the latter only when that threshold is smaller). -/
def FirstLineOK (c : base64) (r : Nat) (l : List Byte) : Prop :=
  ∃ body : List Byte, (∀ b ∈ body, is_allowed b = true) ∧
    ((l = body ∧ body.length = threshold1 c r) ∨
      (l = FOLD_STR c ++ body ∧ body.length = threshold2 c r ∧
        threshold2 c r < threshold1 c r))

/-- Shape of a closed line after the first when the thresholds are multiples of 4: the
fold marker and a run of allowed characters as long as the threshold. -/
def NextLineOK (c : base64) (r : Nat) (l : List Byte) : Prop :=
  ∃ body : List Byte, (∀ b ∈ body, is_allowed b = true) ∧
    l = FOLD_STR c ++ body ∧ body.length = threshold2 c r

/-- Shape of the closed lines as a whole. -/
def ClosedOK (c : base64) (r : Nat) : List (List Byte) → Prop
  | [] => True
  | l :: rest => FirstLineOK c r l ∧ ∀ l1 ∈ rest, NextLineOK c r l1

/-- Invariant of the main loop of `encode` at a group boundary, for thresholds that are
positive multiples of 4. -/
structure Aligned (c : base64) (r : Nat) (s : EncState) : Prop where
  delim : s.delim_pos = 0
  len : s.line_len = s.line.length
  div : 4 ∣ s.line_len
  lt2 : s.line_len < threshold2 c r
  lt1 : s.is_first_line = true → s.line_len < threshold1 c r
  allowed : ∀ b ∈ s.line, is_allowed b = true
  closed : ClosedOK c r s.enc_text
  first : s.is_first_line = false → s.enc_text ≠ []
  stuck : s.is_first_line = true → s.enc_text ≠ [] → threshold2 c r < threshold1 c r

/-- What the invariant gives at the end of `encode`. -/
structure AlignedEnd (c : base64) (r : Nat) (s : EncState) : Prop where
  closed : ClosedOK c r s.enc_text
  le2 : s.line.length ≤ threshold2 c r
  le1 : s.is_first_line = true → s.line.length ≤ threshold1 c r

/-- Everything emitted so far followed by the line under construction. -/
def EncState.raw (s : EncState) : List Byte := s.enc_text.flatten ++ s.line

/-- A map on texts that respects concatenation, erases the fold marker of the codec and
keeps every character other than a space. -/
structure Erases (c : base64) (f : List Byte → List Byte) : Prop where
  app : ∀ a b, f (a ++ b) = f a ++ f b
  nil : f [] = []
  fold : f (FOLD_STR c) = []
  sym : ∀ b : Byte, b ≠ 32 → f [b] = [b]

/-- Bytes that `decode` appends for the scanned characters of a line, starting from an empty
quad buffer: three bytes for every four characters, and for a remainder of two or three
characters the first one or two bytes of the group completed with zero characters. -/
def decodeQuads : List Byte → List Byte
  | c0 :: c1 :: c2 :: c3 :: rest =>
    (unpack (findAll ⟨c0, c1, c2, c3⟩)).toList ++ decodeQuads rest
  | [c0, c1, c2] => (unpack (findAll ⟨c0, c1, c2, 0⟩)).toList.take 2
  | [c0, c1] => (unpack (findAll ⟨c0, c1, 0, 0⟩)).toList.take 1
  | [_] => []
  | [] => []

/-- Invariant of `encode` for a codec without folding: `delim_pos` is 0, the length counter
is the length of the line buffer and has not passed the threshold, and every closed line
has either the threshold rounded up to a multiple of 4 or exactly the threshold as its
length. -/
structure Unfolded (c : base64) (r : Nat) (s : EncState) : Prop where
  delim : s.delim_pos = 0
  len : s.line_len = s.line.length
  le : s.line_len ≤ threshold2 c r
  closed : ∀ l ∈ s.enc_text,
    l.length = 4 * ((threshold2 c r + 3) / 4) ∨ l.length = threshold2 c r

/-! ## Facts about the alphabet -/

set_option maxRecDepth 100000 in
theorem charsetAt_eq_alphabet : ∀ i : Fin 64, charsetAt i.val = alphabet i.val := by decide

set_option maxRecDepth 100000 in
theorem charsetFind_alphabet : ∀ i : Fin 64, charsetFind (alphabet i.val) = i.val := by decide

set_option maxRecDepth 100000 in
theorem alphabet_facts : ∀ i : Fin 64,
    is_allowed (alphabet i.val) = true ∧ alphabet i.val ≠ EQUAL_CHAR ∧ alphabet i.val ≠ 32 := by
  decide

set_option maxRecDepth 100000 in
theorem is_allowed_ne_equal : ∀ b : Byte, is_allowed b = true → b ≠ EQUAL_CHAR := by decide

set_option maxRecDepth 100000 in
theorem is_allowed_ne_space : ∀ b : Byte, is_allowed b = true → b ≠ 32 := by decide

/-! ## Bit operations on bytes as division and remainder -/

set_option maxRecDepth 100000 in
theorem byte_bits : ∀ b : Byte,
    (b.val &&& 0xfc) >>> 2 = b.val / 4 ∧ (b.val &&& 0x03) <<< 4 = b.val % 4 * 16 ∧
    (b.val &&& 0xf0) >>> 4 = b.val / 16 ∧ (b.val &&& 0x0f) <<< 2 = b.val % 16 * 4 ∧
    (b.val &&& 0xc0) >>> 6 = b.val / 64 ∧ b.val &&& 0x3f = b.val % 64 ∧
    b.val <<< 2 = b.val * 4 ∧ (b.val &&& 0x30) >>> 4 = b.val / 16 % 4 ∧
    (b.val &&& 0xf) <<< 4 = b.val % 16 * 16 ∧ (b.val &&& 0x3c) >>> 2 = b.val / 4 % 16 ∧
    (b.val &&& 0x3) <<< 6 = b.val % 4 * 64 := by
  decide

theorem toByte_val (n : Nat) : (toByte n).val = n % 256 := rfl

theorem toByte_of_lt {n : Nat} (h : n < 256) : (toByte n).val = n := by
  rw [toByte_val]; exact Nat.mod_eq_of_lt h

/-! ## The group packing of `encode` and `decode` against the 24-bit layout -/

theorem sextet_lt (n k : Nat) : n / 2 ^ (18 - 6 * k) % 64 < 64 := Nat.mod_lt _ (by decide)

theorem sextet_facts (n k : Nat) :
    is_allowed (sextet n k) = true ∧ sextet n k ≠ EQUAL_CHAR ∧ sextet n k ≠ 32 :=
  alphabet_facts ⟨n / 2 ^ (18 - 6 * k) % 64, sextet_lt n k⟩

theorem charsetFind_sextet (n k : Nat) :
    charsetFind (sextet n k) = n / 2 ^ (18 - 6 * k) % 64 :=
  charsetFind_alphabet ⟨n / 2 ^ (18 - 6 * k) % 64, sextet_lt n k⟩

theorem charsetAt_alphabet_of_lt {i : Nat} (h : i < 64) : charsetAt i = alphabet i :=
  charsetAt_eq_alphabet ⟨i, h⟩

/-- The four symbols `encode` appends for a group are the sextets of its 24-bit number. -/
theorem charsetAt_pack (b0 b1 b2 : Byte) :
    charsetAt (pack ⟨b0, b1, b2⟩).a0.val = sextet (group24 b0 b1 b2) 0 ∧
    charsetAt (pack ⟨b0, b1, b2⟩).a1.val = sextet (group24 b0 b1 b2) 1 ∧
    charsetAt (pack ⟨b0, b1, b2⟩).a2.val = sextet (group24 b0 b1 b2) 2 ∧
    charsetAt (pack ⟨b0, b1, b2⟩).a3.val = sextet (group24 b0 b1 b2) 3 := by
  have h0 := b0.isLt
  have h1 := b1.isLt
  have h2 := b2.isLt
  obtain ⟨e1, e2, e3, e4, e5, e6, -⟩ := byte_bits b0
  obtain ⟨f1, f2, f3, f4, f5, f6, -⟩ := byte_bits b1
  obtain ⟨g1, g2, g3, g4, g5, g6, -⟩ := byte_bits b2
  simp only [pack, toByte_val, sextet, group24, e1, e2, f3, f4, g5, g6]
  refine ⟨?_, ?_, ?_, ?_⟩
  · have : b0.val / 4 % 256 = (b0.val * 65536 + b1.val * 256 + b2.val) / 2 ^ (18 - 6 * 0) % 64 := by
      norm_num; omega
    rw [this]; exact charsetAt_alphabet_of_lt (sextet_lt _ 0)
  · have : (b0.val % 4 * 16 + b1.val / 16) % 256 =
        (b0.val * 65536 + b1.val * 256 + b2.val) / 2 ^ (18 - 6 * 1) % 64 := by
      norm_num; omega
    rw [this]; exact charsetAt_alphabet_of_lt (sextet_lt _ 1)
  · have : (b1.val % 16 * 4 + b2.val / 64) % 256 =
        (b0.val * 65536 + b1.val * 256 + b2.val) / 2 ^ (18 - 6 * 2) % 64 := by
      norm_num; omega
    rw [this]; exact charsetAt_alphabet_of_lt (sextet_lt _ 2)
  · have : b2.val % 64 % 256 =
        (b0.val * 65536 + b1.val * 256 + b2.val) / 2 ^ (18 - 6 * 3) % 64 := by
      norm_num; omega
    rw [this]; exact charsetAt_alphabet_of_lt (sextet_lt _ 3)

/-- First byte `decode` computes from a group whose first two symbols are sextets 0 and 1. -/
theorem unpack_a0 (b0 b1 b2 y z : Byte) :
    (unpack (findAll ⟨sextet (group24 b0 b1 b2) 0, sextet (group24 b0 b1 b2) 1, y, z⟩)).a0
      = b0 := by
  have h0 := b0.isLt
  have h1 := b1.isLt
  have h2 := b2.isLt
  apply Fin.ext
  simp only [unpack, findAll, charsetFind_sextet, (byte_bits _).2.2.2.2.2.2.1,
    (byte_bits _).2.2.2.2.2.2.2.1, group24]
  simp only [toByte_val]
  norm_num
  omega

/-- Second byte `decode` computes from a group whose symbols 1 and 2 are sextets 1 and 2. -/
theorem unpack_a1 (b0 b1 b2 x z : Byte) :
    (unpack (findAll ⟨x, sextet (group24 b0 b1 b2) 1, sextet (group24 b0 b1 b2) 2, z⟩)).a1
      = b1 := by
  have h0 := b0.isLt
  have h1 := b1.isLt
  have h2 := b2.isLt
  apply Fin.ext
  simp only [unpack, findAll, charsetFind_sextet,
    (byte_bits _).2.2.2.2.2.2.2.2.1, (byte_bits _).2.2.2.2.2.2.2.2.2.1, group24]
  simp only [toByte_val]
  norm_num
  omega

/-- Third byte `decode` computes from a group whose symbols 2 and 3 are sextets 2 and 3. -/
theorem unpack_a2 (b0 b1 b2 x y : Byte) :
    (unpack (findAll ⟨x, y, sextet (group24 b0 b1 b2) 2, sextet (group24 b0 b1 b2) 3⟩)).a2
      = b2 := by
  have h0 := b0.isLt
  have h1 := b1.isLt
  have h2 := b2.isLt
  apply Fin.ext
  simp only [unpack, findAll, charsetFind_sextet,
    (byte_bits _).2.2.2.2.2.2.2.2.2.2, group24]
  simp only [toByte_val]
  norm_num
  omega

/-! ## `decode`: scanning one line -/

theorem stdBase64_length : ∀ x : List Byte, (stdBase64 x).length = paddedLen x.length
  | [] => by simp [stdBase64, paddedLen]
  | [_] => by simp [stdBase64, paddedLen]
  | [_, _] => by simp [stdBase64, paddedLen]
  | _ :: _ :: _ :: rest => by
    have ih := stdBase64_length rest
    simp only [stdBase64, List.length_cons, ih, paddedLen]
    omega

theorem decode_char_of_allowed (s : DecState) (ch : Byte) (h : is_allowed ch = true) :
    decode_char s ch = .ok
      (if s.count_4_chars + 1 = 4 then
        { dec_text := s.dec_text ++
            (unpack (findAll (s.group_6bit.set s.count_4_chars ch))).toList
          group_6bit := findAll (s.group_6bit.set s.count_4_chars ch)
          count_4_chars := 0 }
      else
        { s with
          group_6bit := s.group_6bit.set s.count_4_chars ch
          count_4_chars := s.count_4_chars + 1 }) := by
  unfold decode_char
  simp only [h, Bool.not_true, Bool.false_eq_true, if_false]
  split <;> rfl

theorem decode_scan_cons_lt (d : List Byte) (g : Group4) (n : Nat) (ch : Byte)
    (rest : List Byte) (h : is_allowed ch = true) (hn : n < 3) :
    decode_scan ⟨d, g, n⟩ (ch :: rest) = decode_scan ⟨d, g.set n ch, n + 1⟩ rest := by
  rw [decode_scan, if_neg (is_allowed_ne_equal ch h), decode_char_of_allowed _ ch h]
  have : ¬ (n + 1 = 4) := by omega
  simp only [this, if_false]

theorem decode_scan_cons_three (d : List Byte) (g : Group4) (ch : Byte)
    (rest : List Byte) (h : is_allowed ch = true) :
    decode_scan ⟨d, g, 3⟩ (ch :: rest) =
      decode_scan ⟨d ++ (unpack (findAll (g.set 3 ch))).toList, findAll (g.set 3 ch), 0⟩
        rest := by
  rw [decode_scan, if_neg (is_allowed_ne_equal ch h), decode_char_of_allowed _ ch h]
  simp only [if_true]

/-- Scanning four symbols of one group from an empty quad buffer appends the three bytes
of the group. -/
theorem decode_scan_quad (d : List Byte) (g : Group4) (b0 b1 b2 : Byte) (tl : List Byte) :
    ∃ g1, decode_scan ⟨d, g, 0⟩ (sextet (group24 b0 b1 b2) 0 :: sextet (group24 b0 b1 b2) 1 ::
        sextet (group24 b0 b1 b2) 2 :: sextet (group24 b0 b1 b2) 3 :: tl) =
      decode_scan ⟨d ++ [b0, b1, b2], g1, 0⟩ tl := by
  refine ⟨findAll ⟨sextet (group24 b0 b1 b2) 0, sextet (group24 b0 b1 b2) 1,
    sextet (group24 b0 b1 b2) 2, sextet (group24 b0 b1 b2) 3⟩, ?_⟩
  rw [decode_scan_cons_lt _ _ _ _ _ (sextet_facts _ _).1 (by decide),
    decode_scan_cons_lt _ _ _ _ _ (sextet_facts _ _).1 (by decide),
    decode_scan_cons_lt _ _ _ _ _ (sextet_facts _ _).1 (by decide),
    decode_scan_cons_three _ _ _ _ (sextet_facts _ _).1]
  simp only [Group4.set, Group3.toList, unpack_a0, unpack_a1, unpack_a2]

/-- Scanning the standard base64 text of `x` from an empty quad buffer succeeds, and after
the block for the remaining characters the bytes of `x` have been appended. -/
theorem decode_scan_stdBase64 : ∀ (x : List Byte) (d : List Byte) (g : Group4),
    ∃ s1, decode_scan ⟨d, g, 0⟩ (stdBase64 x) = .ok s1 ∧ (decode_rest s1).dec_text = d ++ x
  | [], d, g => ⟨⟨d, g, 0⟩, rfl, by simp [decode_rest]⟩
  | [b0], d, g => by
    refine ⟨⟨d, (g.set 0 (sextet (group24 b0 0 0) 0)).set 1 (sextet (group24 b0 0 0) 1), 2⟩,
      ?_, ?_⟩
    · simp only [stdBase64]
      rw [decode_scan_cons_lt _ _ _ _ _ (sextet_facts _ _).1 (by decide),
        decode_scan_cons_lt _ _ _ _ _ (sextet_facts _ _).1 (by decide)]
      rfl
    · simp [decode_rest, Group4.zeroFrom, Group4.set, Group3.toList, List.range', unpack_a0]
  | [b0, b1], d, g => by
    refine ⟨⟨d, ((g.set 0 (sextet (group24 b0 b1 0) 0)).set 1
      (sextet (group24 b0 b1 0) 1)).set 2 (sextet (group24 b0 b1 0) 2), 3⟩, ?_, ?_⟩
    · simp only [stdBase64]
      rw [decode_scan_cons_lt _ _ _ _ _ (sextet_facts _ _).1 (by decide),
        decode_scan_cons_lt _ _ _ _ _ (sextet_facts _ _).1 (by decide),
        decode_scan_cons_lt _ _ _ _ _ (sextet_facts _ _).1 (by decide)]
      rfl
    · simp [decode_rest, Group4.zeroFrom, Group4.set, Group3.toList, List.range', unpack_a0,
        unpack_a1]
  | b0 :: b1 :: b2 :: rest, d, g => by
    obtain ⟨g1, hg⟩ := decode_scan_quad d g b0 b1 b2 (stdBase64 rest)
    obtain ⟨s1, h1, h2⟩ := decode_scan_stdBase64 rest (d ++ [b0, b1, b2]) g1
    refine ⟨s1, ?_, ?_⟩
    · rw [stdBase64, hg, h1]
    · rw [h2]; simp

theorem stdBase64_eq_nil : ∀ x : List Byte, stdBase64 x = [] → x = []
  | [], _ => rfl
  | [_], h => by simp [stdBase64] at h
  | [_, _], h => by simp [stdBase64] at h
  | _ :: _ :: _ :: _, h => by simp [stdBase64] at h

/-- Scanning a line of allowed characters never fails and advances the quad counter by
the length of the line modulo 4. -/
theorem decode_scan_of_allowed : ∀ (l : List Byte) (d : List Byte) (g : Group4) (n : Nat),
    (∀ b ∈ l, is_allowed b = true) → n < 4 →
    ∃ d1 g1, decode_scan ⟨d, g, n⟩ l = .ok ⟨d1, g1, (n + l.length) % 4⟩
  | [], d, g, n, _, hn => ⟨d, g, by simp [decode_scan, Nat.mod_eq_of_lt hn]⟩
  | ch :: rest, d, g, n, hl, hn => by
    have hch : is_allowed ch = true := hl ch (List.mem_cons_self _ _)
    have hrest : ∀ b ∈ rest, is_allowed b = true := fun b hb => hl b (List.mem_cons_of_mem _ hb)
    by_cases h3 : n = 3
    · subst h3
      obtain ⟨d1, g1, h1⟩ := decode_scan_of_allowed rest
        (d ++ (unpack (findAll (g.set 3 ch))).toList) (findAll (g.set 3 ch)) 0 hrest (by decide)
      refine ⟨d1, g1, ?_⟩
      rw [decode_scan_cons_three _ _ _ _ hch, h1]
      have : (3 + (ch :: rest).length) % 4 = (0 + rest.length) % 4 := by
        simp only [List.length_cons]; omega
      rw [this]
    · obtain ⟨d1, g1, h1⟩ := decode_scan_of_allowed rest d (g.set n ch) (n + 1) hrest (by omega)
      refine ⟨d1, g1, ?_⟩
      rw [decode_scan_cons_lt _ _ _ _ _ hch (by omega), h1]
      have : (n + (ch :: rest).length) % 4 = (n + 1 + rest.length) % 4 := by
        simp only [List.length_cons]; omega
      rw [this]

/-- Scanning `a ++ b` is scanning `a` and then `b`, when `a` holds no padding character. -/
theorem decode_scan_append : ∀ (a b : List Byte) (s : DecState),
    (∀ ch ∈ a, ch ≠ EQUAL_CHAR) →
    decode_scan s (a ++ b) =
      match decode_scan s a with
      | .error e => .error e
      | .ok s1 => decode_scan s1 b
  | [], b, s, _ => by simp [decode_scan]
  | ch :: rest, b, s, h => by
    have hch : ch ≠ EQUAL_CHAR := h ch (List.mem_cons_self _ _)
    have hrest : ∀ x ∈ rest, x ≠ EQUAL_CHAR := fun x hx => h x (List.mem_cons_of_mem _ hx)
    simp only [List.cons_append, decode_scan, if_neg hch]
    cases hd : decode_char s ch with
    | error e => rfl
    | ok s1 => exact decode_scan_append rest b s1 hrest

theorem decode_lines_append (c : base64) : ∀ (a b : List (List Byte)) (s : DecState),
    decode_lines c s (a ++ b) =
      match decode_lines c s a with
      | .error e => .error e
      | .ok s1 => decode_lines c s1 b
  | [], b, s => by simp [decode_lines]
  | l :: rest, b, s => by
    simp only [List.cons_append, decode_lines]
    cases hd : decode_line c s l with
    | error e => rfl
    | ok s1 => exact decode_lines_append c rest b s1

/-- The only failure of the scan of a line is the bad-character error, raised for the first
character before the padding that is not allowed. -/
theorem decode_scan_error_iff : ∀ (l : List Byte) (s : DecState) (e : codec_error),
    decode_scan s l = .error e ↔
      ∃ ch, e = .bad_character ch ∧
        (l.takeWhile (fun b => b != EQUAL_CHAR)).find? (fun b => !is_allowed b) = some ch
  | [], s, e => by simp [decode_scan]
  | ch :: rest, s, e => by
    by_cases heq : ch = EQUAL_CHAR
    · simp [decode_scan, heq, List.takeWhile_cons]
    · have hne : (ch != EQUAL_CHAR) = true := by simpa using heq
      by_cases hal : is_allowed ch = true
      · have ih := decode_scan_error_iff rest
        simp only [decode_scan, if_neg heq, decode_char_of_allowed s ch hal, List.takeWhile_cons,
          hne, if_true, List.find?_cons, hal, Bool.not_true]
        exact ih _ e
      · have hal2 : is_allowed ch = false := by simpa using hal
        simp only [decode_scan, if_neg heq, decode_char, hal2, Bool.not_false, if_true,
          List.takeWhile_cons, hne, List.find?_cons]
        constructor
        · intro h
          injection h with h
          exact ⟨ch, h.symm, rfl⟩
        · rintro ⟨x, hx, hx2⟩
          injection hx2 with hx2
          rw [hx, hx2]

/-- Decoding lines that are within the limit, hold only allowed characters and have a
length divisible by 4 is scanning their concatenation; the quad buffer is empty again at
the end. -/
theorem decode_lines_aligned (c : base64) : ∀ (pre : List (List Byte)) (d : List Byte)
    (g : Group4),
    (∀ l ∈ pre, l.length ≤ subSz c.lines_policy_ 2 ∧ 4 ∣ l.length ∧
      ∀ b ∈ l, is_allowed b = true) →
    ∃ d1 g1, decode_lines c ⟨d, g, 0⟩ pre = .ok ⟨d1, g1, 0⟩ ∧
      ∀ tail, decode_scan ⟨d, g, 0⟩ (pre.flatten ++ tail) = decode_scan ⟨d1, g1, 0⟩ tail
  | [], d, g, _ => ⟨d, g, rfl, fun tail => by simp⟩
  | l :: rest, d, g, h => by
    obtain ⟨hlen, hdiv, hal⟩ := h l (List.mem_cons_self _ _)
    obtain ⟨d1, g1, h1⟩ := decode_scan_of_allowed l d g 0 hal (by decide)
    have hz : (0 + l.length) % 4 = 0 := by omega
    rw [hz] at h1
    obtain ⟨d2, g2, h2, h3⟩ := decode_lines_aligned c rest d1 g1
      (fun l1 hl1 => h l1 (List.mem_cons_of_mem _ hl1))
    refine ⟨d2, g2, ?_, ?_⟩
    · simp only [decode_lines, decode_line, if_neg (Nat.not_lt.mpr hlen), h1]
      simpa [decode_rest] using h2
    · intro tail
      rw [List.flatten_cons, List.append_assoc,
        decode_scan_append l _ _ (fun ch hch => is_allowed_ne_equal ch (hal ch hch)), h1]
      exact h3 tail

/-- Lines whose concatenation is the standard base64 text of `x`, all within the limit and
all but the last made of whole groups of allowed characters, decode to `x`. -/
theorem decode_of_aligned_lines (c : base64) (lines : List (List Byte)) (x : List Byte)
    (hjoin : lines.flatten = stdBase64 x)
    (hlen : ∀ l ∈ lines, l.length ≤ subSz c.lines_policy_ 2)
    (hal : ∀ l ∈ lines.dropLast, 4 ∣ l.length ∧ ∀ b ∈ l, is_allowed b = true) :
    decode c lines = .ok x := by
  by_cases hnil : lines = []
  · subst hnil
    have : x = [] := stdBase64_eq_nil x (by simpa using hjoin.symm)
    subst this
    rfl
  · have hsplit := List.dropLast_append_getLast hnil
    obtain ⟨d1, g1, h1, h2⟩ := decode_lines_aligned c lines.dropLast [] ⟨0, 0, 0, 0⟩
      (fun l hl => ⟨hlen l (List.mem_of_mem_dropLast hl), hal l hl⟩)
    obtain ⟨s1, h3, h4⟩ := decode_scan_stdBase64 x [] ⟨0, 0, 0, 0⟩
    have hlast : (lines.getLast hnil).length ≤ subSz c.lines_policy_ 2 :=
      hlen _ (List.getLast_mem hnil)
    have hscan : decode_scan ⟨d1, g1, 0⟩ (lines.getLast hnil) = .ok s1 := by
      rw [← h2, ← h3, ← hjoin]
      conv_rhs => rw [← hsplit]
      simp
    have : decode c (lines.dropLast ++ [lines.getLast hnil]) = .ok x := by
      unfold decode
      rw [DecState.init, decode_lines_append, h1]
      simp only [decode_lines, decode_line, if_neg (Nat.not_lt.mpr hlast), hscan]
      simpa using h4
    rwa [hsplit] at this

/-! ## `encode`: closing a line -/

theorem add_new_line_eq (f : Bool) (s : EncState) (h : s.delim_pos = 0) :
    add_new_line f s =
      { s with enc_text := s.enc_text ++ [s.line], line := [], line_len := 0 } := by
  simp [add_new_line, h]

/-- The line-closing statement on a state whose `delim_pos` is 0 (it is never anything
else): the whole buffer is emitted, with the fold marker in the second branch. -/
theorem break_line_eq (c : base64) (r : Nat) (s : EncState) (h : s.delim_pos = 0) :
    break_line c r s =
      if s.is_first_line = true ∧ threshold1 c r ≤ s.line_len then
        { s with
          enc_text := s.enc_text ++ [s.line], line := [], line_len := 0
          is_first_line := false }
      else if threshold2 c r ≤ s.line_len then
        { s with enc_text := s.enc_text ++ [FOLD_STR c ++ s.line], line := [], line_len := 0 }
      else s := by
  unfold break_line
  by_cases h1 : s.is_first_line = true ∧ threshold1 c r ≤ s.line_len
  · rw [if_pos h1, if_pos (by simpa using h1), add_new_line_eq _ _ (by exact h)]
  · rw [if_neg h1, if_neg (by simpa using h1)]
    by_cases h2 : threshold2 c r ≤ s.line_len
    · rw [if_pos h2, if_pos h2, add_new_line_eq _ _ (by exact h)]
    · rw [if_neg h2, if_neg h2]

/-- The line-closing statement does nothing below the thresholds. -/
theorem break_line_noop (c : base64) (r : Nat) (s : EncState)
    (h2 : s.line_len < threshold2 c r)
    (h1 : s.is_first_line = true → s.line_len < threshold1 c r) :
    break_line c r s = s := by
  unfold break_line
  have a : ¬ (s.is_first_line = true ∧ threshold1 c r ≤ s.line_len) := by
    rintro ⟨ha, hb⟩
    have := h1 ha
    omega
  rw [if_neg (by simpa using a), if_neg (by omega)]

theorem break_line_raw (c : base64) (r : Nat) (f : List Byte → List Byte) (hf : Erases c f)
    (s : EncState) (h : s.delim_pos = 0) :
    f (break_line c r s).raw = f s.raw ∧ (break_line c r s).delim_pos = 0 ∧
      (break_line c r s).count_3_chars = s.count_3_chars ∧
      (break_line c r s).group_8bit = s.group_8bit := by
  rw [break_line_eq c r s h]
  split_ifs
  · simp [EncState.raw, h]
  · simp [EncState.raw, h, hf.app, hf.fold]
  · simp [h]

theorem encode_char_raw_lt (c : base64) (r : Nat) (f : List Byte → List Byte)
    (hf : Erases c f) (s : EncState) (b : Byte) (h : s.delim_pos = 0)
    (hc : s.count_3_chars < 2) :
    f (encode_char c r s b).raw = f s.raw ∧ (encode_char c r s b).delim_pos = 0 ∧
      (encode_char c r s b).count_3_chars = s.count_3_chars + 1 ∧
      (encode_char c r s b).group_8bit = s.group_8bit.set s.count_3_chars b := by
  unfold encode_char
  have : ¬ (s.count_3_chars + 1 = 3) := by omega
  simp only [this, if_false]
  exact break_line_raw c r f hf _ h

theorem encode_char_raw_two (c : base64) (r : Nat) (f : List Byte → List Byte)
    (hf : Erases c f) (s : EncState) (b : Byte) (h : s.delim_pos = 0)
    (hc : s.count_3_chars = 2) :
    f (encode_char c r s b).raw = f s.raw ++
        [sextet (group24 s.group_8bit.a0 s.group_8bit.a1 b) 0,
         sextet (group24 s.group_8bit.a0 s.group_8bit.a1 b) 1,
         sextet (group24 s.group_8bit.a0 s.group_8bit.a1 b) 2,
         sextet (group24 s.group_8bit.a0 s.group_8bit.a1 b) 3] ∧
      (encode_char c r s b).delim_pos = 0 ∧ (encode_char c r s b).count_3_chars = 0 := by
  unfold encode_char
  simp only [hc, if_true]
  obtain ⟨p0, p1, p2, p3⟩ := charsetAt_pack s.group_8bit.a0 s.group_8bit.a1 b
  obtain ⟨h1, h2, h3, -⟩ := break_line_raw c r f hf
    { s with
      group_8bit := s.group_8bit.set 2 b
      line := s.line ++ [charsetAt (pack (s.group_8bit.set 2 b)).a0.val,
        charsetAt (pack (s.group_8bit.set 2 b)).a1.val,
        charsetAt (pack (s.group_8bit.set 2 b)).a2.val,
        charsetAt (pack (s.group_8bit.set 2 b)).a3.val]
      count_3_chars := 0
      line_len := addSz s.line_len 4 } h
  refine ⟨?_, h2, h3⟩
  rw [h1]
  simp only [EncState.raw, Group3.set, p0, p1, p2, p3]
  rw [← List.append_assoc, hf.app]
  congr 1
  have e : ∀ a b c d : Byte, [a, b, c, d] = [a] ++ ([b] ++ ([c] ++ [d])) := fun _ _ _ _ => rfl
  rw [e, hf.app, hf.app, hf.app, hf.sym _ (sextet_facts _ 0).2.2, hf.sym _ (sextet_facts _ 1).2.2,
    hf.sym _ (sextet_facts _ 2).2.2, hf.sym _ (sextet_facts _ 3).2.2]

theorem encode_symbol_raw (c : base64) (r : Nat) (f : List Byte → List Byte)
    (hf : Erases c f) (g6 : Group4) (s : EncState) (i : Nat) (h : s.delim_pos = 0)
    (hs : charsetAt (g6.get i).val ≠ 32) :
    f (encode_symbol c r g6 s i).raw = f s.raw ++ [charsetAt (g6.get i).val] ∧
      (encode_symbol c r g6 s i).delim_pos = 0 := by
  obtain ⟨h1, h2, -, -⟩ := break_line_raw c r f hf s h
  unfold encode_symbol
  refine ⟨?_, h2⟩
  simp only [EncState.raw] at h1 ⊢
  rw [← List.append_assoc, hf.app, h1, hf.sym _ hs]

theorem encode_pad_raw (c : base64) (r : Nat) (f : List Byte → List Byte)
    (hf : Erases c f) (s : EncState) (h : s.delim_pos = 0) :
    f (encode_pad c r s).raw = f s.raw ++ [EQUAL_CHAR] ∧ (encode_pad c r s).delim_pos = 0 := by
  obtain ⟨h1, h2, -, -⟩ := break_line_raw c r f hf
    { s with count_3_chars := s.count_3_chars + 1 } h
  unfold encode_pad
  refine ⟨?_, h2⟩
  simp only [EncState.raw] at h1 ⊢
  rw [← List.append_assoc, hf.app, h1, hf.sym _ (by decide)]

theorem range_two : List.range 2 = [0, 1] := rfl

theorem range_three : List.range 3 = [0, 1, 2] := rfl

theorem range_one : List.range 1 = [0] := rfl

theorem zeroFrom_one (g : Group3) : g.zeroFrom 1 = ⟨g.a0, 0, 0⟩ := rfl

theorem zeroFrom_two (g : Group3) : g.zeroFrom 2 = ⟨g.a0, g.a1, 0⟩ := rfl

theorem encode_rest_raw_one (c : base64) (r : Nat) (f : List Byte → List Byte)
    (hf : Erases c f) (s : EncState) (h : s.delim_pos = 0) (hc : s.count_3_chars = 1) :
    f (encode_rest c r s).raw = f s.raw ++ stdBase64 [s.group_8bit.a0] := by
  obtain ⟨e, g, n, l, ll, fl, dp⟩ := s
  simp only at h hc
  subst hc h
  obtain ⟨p0, p1, -, -⟩ := charsetAt_pack g.a0 0 0
  unfold encode_rest
  simp only [Nat.zero_lt_one, if_true, Nat.reduceAdd, Nat.reduceSub, range_two,
    List.foldl_cons, List.foldl_nil, zeroFrom_one]
  have a0 := encode_symbol_raw c r f hf (pack ⟨g.a0, 0, 0⟩)
    ⟨e, ⟨g.a0, 0, 0⟩, 1, l, ll, fl, 0⟩ 0 rfl
    (by simp only [Group4.get, p0]; exact (sextet_facts _ 0).2.2)
  have a1 := encode_symbol_raw c r f hf (pack ⟨g.a0, 0, 0⟩) _ 1 a0.2
    (by simp only [Group4.get, p1]; exact (sextet_facts _ 1).2.2)
  have a2 := encode_pad_raw c r f hf _ a1.2
  have a3 := encode_pad_raw c r f hf _ a2.2
  simp only [EncState.raw] at a0 a1 a2 a3 ⊢
  rw [a3.1, a2.1, a1.1, a0.1]
  simp only [Group4.get, p0, p1, stdBase64, List.append_assoc, List.singleton_append]
  rfl

theorem encode_rest_raw_two (c : base64) (r : Nat) (f : List Byte → List Byte)
    (hf : Erases c f) (s : EncState) (h : s.delim_pos = 0) (hc : s.count_3_chars = 2) :
    f (encode_rest c r s).raw = f s.raw ++ stdBase64 [s.group_8bit.a0, s.group_8bit.a1] := by
  obtain ⟨e, g, n, l, ll, fl, dp⟩ := s
  simp only at h hc
  subst hc h
  obtain ⟨p0, p1, p2, -⟩ := charsetAt_pack g.a0 g.a1 0
  unfold encode_rest
  simp only [Nat.zero_lt_two, if_true, Nat.reduceAdd, Nat.reduceSub, range_three, range_one,
    List.foldl_cons, List.foldl_nil, zeroFrom_two]
  have a0 := encode_symbol_raw c r f hf (pack ⟨g.a0, g.a1, 0⟩)
    ⟨e, ⟨g.a0, g.a1, 0⟩, 2, l, ll, fl, 0⟩ 0 rfl
    (by simp only [Group4.get, p0]; exact (sextet_facts _ 0).2.2)
  have a1 := encode_symbol_raw c r f hf (pack ⟨g.a0, g.a1, 0⟩) _ 1 a0.2
    (by simp only [Group4.get, p1]; exact (sextet_facts _ 1).2.2)
  have a2 := encode_symbol_raw c r f hf (pack ⟨g.a0, g.a1, 0⟩) _ 2 a1.2
    (by simp only [Group4.get, p2]; exact (sextet_facts _ 2).2.2)
  have a3 := encode_pad_raw c r f hf _ a2.2
  simp only [EncState.raw] at a0 a1 a2 a3 ⊢
  rw [a3.1, a2.1, a1.1, a0.1]
  simp only [Group4.get, p0, p1, p2, stdBase64, List.append_assoc, List.singleton_append]
  rfl

/-- Content of the output: from a state at a group boundary, the main loop and the block
for the remaining characters add the standard base64 text of the input, up to fold
markers. -/
theorem encode_loop_raw (c : base64) (r : Nat) (f : List Byte → List Byte) (hf : Erases c f) :
    ∀ (text : List Byte) (s : EncState), s.delim_pos = 0 → s.count_3_chars = 0 →
      f (encode_rest c r (text.foldl (encode_char c r) s)).raw = f s.raw ++ stdBase64 text
  | [], s, _, hc => by simp [encode_rest, hc, stdBase64]
  | [b0], s, h, hc => by
    obtain ⟨h1, h2, h3, h4⟩ := encode_char_raw_lt c r f hf s b0 h (by omega)
    simp only [List.foldl_cons, List.foldl_nil]
    rw [encode_rest_raw_one c r f hf _ h2 (by omega), h1, h4, hc]
    rfl
  | [b0, b1], s, h, hc => by
    obtain ⟨h1, h2, h3, h4⟩ := encode_char_raw_lt c r f hf s b0 h (by omega)
    obtain ⟨k1, k2, k3, k4⟩ := encode_char_raw_lt c r f hf _ b1 h2 (by omega)
    simp only [List.foldl_cons, List.foldl_nil]
    rw [encode_rest_raw_two c r f hf _ k2 (by omega), k1, h1, k4, h4, h3, hc]
    rfl
  | b0 :: b1 :: b2 :: rest, s, h, hc => by
    obtain ⟨h1, h2, h3, h4⟩ := encode_char_raw_lt c r f hf s b0 h (by omega)
    obtain ⟨k1, k2, k3, k4⟩ := encode_char_raw_lt c r f hf _ b1 h2 (by omega)
    obtain ⟨m1, m2, m3⟩ := encode_char_raw_two c r f hf _ b2 k2 (by omega)
    have ih := encode_loop_raw c r f hf rest _ m2 m3
    simp only [List.foldl_cons]
    rw [ih, m1, k1, h1, k4, h4, h3, hc, stdBase64, List.append_assoc]
    rfl

theorem encode_flatten (c : base64) (x : List Byte) (r : Nat) :
    (encode c x r).flatten = (encode_state c x r).raw := by
  unfold encode EncState.result
  by_cases h : (encode_state c x r).line = []
  · simp [h, EncState.raw]
  · simp [h, EncState.raw]

theorem erases_filter (c : base64) : Erases c (List.filter (fun b => b != 32)) where
  app := fun a b => List.filter_append a b
  nil := rfl
  fold := by unfold FOLD_STR; split <;> rfl
  sym := fun b hb => by
    have : (b != 32) = true := by simpa using hb
    simp only [List.filter, this]

/-! ## `encode`: states below the thresholds -/

theorem SZ_pos : 0 < SZ := Nat.two_pow_pos 64

theorem threshold1_lt (c : base64) (r : Nat) : threshold1 c r < SZ :=
  Nat.mod_lt _ SZ_pos

theorem threshold2_lt (c : base64) (r : Nat) : threshold2 c r < SZ :=
  Nat.mod_lt _ SZ_pos

theorem addSz_of_lt {a b : Nat} (h : a + b < SZ) : addSz a b = a + b :=
  Nat.mod_eq_of_lt h

theorem stdBase64_cons3 (b0 b1 b2 : Byte) (rest : List Byte) :
    stdBase64 (b0 :: b1 :: b2 :: rest) = quad b0 b1 b2 ++ stdBase64 rest := by
  simp [stdBase64, quad]

theorem quad_length (b0 b1 b2 : Byte) : (quad b0 b1 b2).length = 4 := rfl

theorem quad_allowed (b0 b1 b2 : Byte) : ∀ b ∈ quad b0 b1 b2, is_allowed b = true := by
  intro b hb
  simp only [quad, List.mem_cons, List.mem_singleton, List.not_mem_nil, or_false] at hb
  rcases hb with h | h | h | h <;> rw [h] <;> exact (sextet_facts _ _).1

/-- Below the thresholds a character that does not complete a group is only stored. -/
theorem encode_char_lt (c : base64) (r : Nat) (e : List (List Byte)) (g : Group3) (n : Nat)
    (l : List Byte) (ll : Nat) (fl : Bool) (dp : Nat) (b : Byte) (hn : n < 2)
    (h2 : ll < threshold2 c r) (h1 : fl = true → ll < threshold1 c r) :
    encode_char c r ⟨e, g, n, l, ll, fl, dp⟩ b = ⟨e, g.set n b, n + 1, l, ll, fl, dp⟩ := by
  unfold encode_char
  have : ¬ (n + 1 = 3) := by omega
  simp only [this, if_false]
  exact break_line_noop c r _ h2 h1

/-- The character that completes a group appends the four symbols of the group, adds 4 to
the length counter and runs the line-closing statement. -/
theorem encode_char_two (c : base64) (r : Nat) (e : List (List Byte)) (g : Group3)
    (l : List Byte) (ll : Nat) (fl : Bool) (dp : Nat) (b : Byte) :
    encode_char c r ⟨e, g, 2, l, ll, fl, dp⟩ b =
      break_line c r ⟨e, ⟨g.a0, g.a1, b⟩, 0, l ++ quad g.a0 g.a1 b, addSz ll 4, fl, dp⟩ := by
  obtain ⟨p0, p1, p2, p3⟩ := charsetAt_pack g.a0 g.a1 b
  unfold encode_char
  simp only [Nat.reduceAdd, if_true, Group3.set, p0, p1, p2, p3, quad]

/-- Three characters from a group boundary, below the thresholds. -/
theorem encode_char_three (c : base64) (r : Nat) (e : List (List Byte)) (g : Group3)
    (l : List Byte) (ll : Nat) (fl : Bool) (dp : Nat) (b0 b1 b2 : Byte) (rest : List Byte)
    (h2 : ll < threshold2 c r) (h1 : fl = true → ll < threshold1 c r) :
    (b0 :: b1 :: b2 :: rest).foldl (encode_char c r) ⟨e, g, 0, l, ll, fl, dp⟩ =
      rest.foldl (encode_char c r)
        (break_line c r ⟨e, ⟨b0, b1, b2⟩, 0, l ++ quad b0 b1 b2, addSz ll 4, fl, dp⟩) := by
  simp only [List.foldl_cons]
  rw [encode_char_lt c r e g 0 l ll fl dp b0 (by decide) h2 h1,
    encode_char_lt c r e _ 1 l ll fl dp b1 (by decide) h2 h1, encode_char_two]
  rfl

/-- Below the thresholds a symbol of the last group is only appended. -/
theorem encode_symbol_lt (c : base64) (r : Nat) (g6 : Group4) (e : List (List Byte))
    (g : Group3) (n : Nat) (l : List Byte) (ll : Nat) (fl : Bool) (dp : Nat) (i : Nat)
    (h2 : ll < threshold2 c r) (h1 : fl = true → ll < threshold1 c r) :
    encode_symbol c r g6 ⟨e, g, n, l, ll, fl, dp⟩ i =
      ⟨e, g, n, l ++ [charsetAt (g6.get i).val], ll + 1, fl, dp⟩ := by
  have hT := threshold2_lt c r
  unfold encode_symbol
  rw [break_line_noop c r _ h2 h1]
  simp only [addSz_of_lt (show ll + 1 < SZ by omega)]

/-- Below the thresholds a padding character is only appended. -/
theorem encode_pad_lt (c : base64) (r : Nat) (e : List (List Byte))
    (g : Group3) (n : Nat) (l : List Byte) (ll : Nat) (fl : Bool) (dp : Nat)
    (h2 : ll < threshold2 c r) (h1 : fl = true → ll < threshold1 c r) :
    encode_pad c r ⟨e, g, n, l, ll, fl, dp⟩ = ⟨e, g, n + 1, l ++ [EQUAL_CHAR], ll + 1, fl, dp⟩ := by
  have hT := threshold2_lt c r
  unfold encode_pad
  rw [break_line_noop c r _ h2 h1]
  simp only [addSz_of_lt (show ll + 1 < SZ by omega)]

/-- The block for the remaining characters with one byte left, when four more characters
stay below the thresholds: no line is closed. -/
theorem encode_rest_one (c : base64) (r : Nat) (e : List (List Byte)) (g : Group3)
    (l : List Byte) (ll : Nat) (fl : Bool) (dp : Nat)
    (h2 : ll + 4 ≤ threshold2 c r) (h1 : fl = true → ll + 4 ≤ threshold1 c r) :
    encode_rest c r ⟨e, g, 1, l, ll, fl, dp⟩ =
      ⟨e, ⟨g.a0, 0, 0⟩, 4, l ++ stdBase64 [g.a0], ll + 4, fl, dp⟩ := by
  obtain ⟨p0, p1, -, -⟩ := charsetAt_pack g.a0 0 0
  unfold encode_rest
  simp only [Nat.zero_lt_one, if_true, Nat.reduceAdd, Nat.reduceSub, range_two,
    List.foldl_cons, List.foldl_nil, zeroFrom_one]
  rw [encode_symbol_lt c r _ e _ 1 l ll fl dp 0 (by omega) (fun h => by have := h1 h; omega),
    encode_symbol_lt c r _ e _ 1 _ (ll + 1) fl dp 1 (by omega)
      (fun h => by have := h1 h; omega),
    encode_pad_lt c r e _ 1 _ (ll + 1 + 1) fl dp (by omega) (fun h => by have := h1 h; omega),
    encode_pad_lt c r e _ 2 _ (ll + 1 + 1 + 1) fl dp (by omega)
      (fun h => by have := h1 h; omega)]
  simp only [Group4.get, p0, p1, stdBase64, List.append_assoc, List.singleton_append]
  rfl

/-- The block for the remaining characters with two bytes left, when four more characters
stay below the thresholds: no line is closed. -/
theorem encode_rest_two (c : base64) (r : Nat) (e : List (List Byte)) (g : Group3)
    (l : List Byte) (ll : Nat) (fl : Bool) (dp : Nat)
    (h2 : ll + 4 ≤ threshold2 c r) (h1 : fl = true → ll + 4 ≤ threshold1 c r) :
    encode_rest c r ⟨e, g, 2, l, ll, fl, dp⟩ =
      ⟨e, ⟨g.a0, g.a1, 0⟩, 4, l ++ stdBase64 [g.a0, g.a1], ll + 4, fl, dp⟩ := by
  obtain ⟨p0, p1, p2, -⟩ := charsetAt_pack g.a0 g.a1 0
  unfold encode_rest
  simp only [Nat.zero_lt_two, if_true, Nat.reduceAdd, Nat.reduceSub, range_three, range_one,
    List.foldl_cons, List.foldl_nil, zeroFrom_two]
  rw [encode_symbol_lt c r _ e _ 2 l ll fl dp 0 (by omega) (fun h => by have := h1 h; omega),
    encode_symbol_lt c r _ e _ 2 _ (ll + 1) fl dp 1 (by omega)
      (fun h => by have := h1 h; omega),
    encode_symbol_lt c r _ e _ 2 _ (ll + 1 + 1) fl dp 2 (by omega)
      (fun h => by have := h1 h; omega),
    encode_pad_lt c r e _ 2 _ (ll + 1 + 1 + 1) fl dp (by omega)
      (fun h => by have := h1 h; omega)]
  simp only [Group4.get, p0, p1, p2, stdBase64, List.append_assoc, List.singleton_append]
  rfl

/-! ## `encode`: input that fits on one line -/

theorem subSz_of_le {a b : Nat} (ha : a < SZ) (hb : b ≤ a) : subSz a b = a - b := by
  unfold subSz
  rw [Nat.mod_eq_of_lt ha, Nat.mod_eq_of_lt (show b < SZ by omega)]
  have : a + SZ - b = a - b + SZ := by omega
  rw [this, Nat.add_mod_right, Nat.mod_eq_of_lt (by omega)]

theorem paddedLen_add_three (n : Nat) : paddedLen (n + 3) = paddedLen n + 4 := by
  unfold paddedLen
  omega

theorem result_of_line_ne (e : List (List Byte)) (g : Group3) (n : Nat) (l : List Byte)
    (ll : Nat) (fl : Bool) (dp : Nat) (h : l ≠ []) :
    EncState.result ⟨e, g, n, l, ll, fl, dp⟩ = e ++ [l] := by
  simp [EncState.result, h]

theorem encode_rest_zero (c : base64) (r : Nat) (s : EncState) (h : s.count_3_chars = 0) :
    encode_rest c r s = s := by
  simp [encode_rest, h]

/-- Without a fold marker, an input whose padded base64 text fits under both thresholds is
emitted as one line, whatever is already in the line buffer. -/
theorem encode_single (c : base64) (r : Nat) (hF : FOLD_STR c = []) :
    ∀ (text : List Byte) (g : Group3) (l : List Byte) (fl : Bool), text ≠ [] →
      l.length + paddedLen text.length ≤ threshold2 c r →
      l.length + paddedLen text.length ≤ threshold1 c r →
      (encode_rest c r (text.foldl (encode_char c r) ⟨[], g, 0, l, l.length, fl, 0⟩)).result
        = [l ++ stdBase64 text]
  | [], _, _, _, h, _, _ => absurd rfl h
  | [b0], g, l, fl, _, h2, h1 => by
    have hp : paddedLen [b0].length = 4 := by simp [paddedLen]
    rw [hp] at h1 h2
    simp only [List.foldl_cons, List.foldl_nil]
    rw [encode_char_lt c r [] g 0 l l.length fl 0 b0 (by decide) (by omega) (fun _ => by omega),
      encode_rest_one c r [] _ l l.length fl 0 (by omega) (fun _ => by omega),
      result_of_line_ne _ _ _ _ _ _ _ (by simp [stdBase64])]
    rfl
  | [b0, b1], g, l, fl, _, h2, h1 => by
    have hp : paddedLen [b0, b1].length = 4 := by simp [paddedLen]
    rw [hp] at h1 h2
    simp only [List.foldl_cons, List.foldl_nil]
    rw [encode_char_lt c r [] g 0 l l.length fl 0 b0 (by decide) (by omega) (fun _ => by omega),
      encode_char_lt c r [] _ 1 l l.length fl 0 b1 (by decide) (by omega) (fun _ => by omega),
      encode_rest_two c r [] _ l l.length fl 0 (by omega) (fun _ => by omega),
      result_of_line_ne _ _ _ _ _ _ _ (by simp [stdBase64])]
    rfl
  | [b0, b1, b2], g, l, fl, _, h2, h1 => by
    have hT := threshold2_lt c r
    have hp : paddedLen [b0, b1, b2].length = 4 := by simp [paddedLen]
    rw [hp] at h1 h2
    rw [encode_char_three c r [] g l l.length fl 0 b0 b1 b2 [] (by omega) (fun _ => by omega),
      List.foldl_nil, break_line_eq c r _ rfl, addSz_of_lt (by omega), stdBase64_cons3]
    simp only [stdBase64, List.append_nil]
    split_ifs
    · rw [encode_rest_zero c r _ rfl]
      simp [EncState.result]
    · rw [encode_rest_zero c r _ rfl]
      simp [EncState.result, hF]
    · rw [encode_rest_zero c r _ rfl, result_of_line_ne _ _ _ _ _ _ _ (by simp [quad])]
      rfl
  | b0 :: b1 :: b2 :: b3 :: rest, g, l, fl, _, h2, h1 => by
    have hT := threshold2_lt c r
    have hp : paddedLen (b0 :: b1 :: b2 :: b3 :: rest).length =
        paddedLen (b3 :: rest).length + 4 := paddedLen_add_three _
    have hq : 4 ≤ paddedLen (b3 :: rest).length := by
      simp only [List.length_cons, paddedLen]; omega
    rw [hp] at h1 h2
    rw [encode_char_three c r [] g l l.length fl 0 b0 b1 b2 (b3 :: rest) (by omega)
        (fun _ => by omega),
      addSz_of_lt (by omega),
      break_line_noop c r _ (by simp only; omega) (fun _ => by simp only; omega),
      stdBase64_cons3, ← List.append_assoc]
    have hl : l.length + 4 = (l ++ quad b0 b1 b2).length := by
      rw [List.length_append, quad_length]
    rw [hl]
    exact encode_single c r hF (b3 :: rest) _ _ fl (by simp)
      (by rw [← hl]; omega) (by rw [← hl]; omega)

theorem is_folding_self (L : Nat) : is_folding ⟨L, L⟩ = false := by
  simp [is_folding]

theorem FOLD_STR_self (L : Nat) : FOLD_STR ⟨L, L⟩ = [] := by
  simp [FOLD_STR, is_folding_self]

theorem threshold_self (L r : Nat) (hL : L < SZ) (hr : r + 2 ≤ L) :
    threshold1 ⟨L, L⟩ r = L - r - 2 ∧ threshold2 ⟨L, L⟩ r = L - r - 2 := by
  unfold threshold1 threshold2
  simp only [FOLD_STR_self, List.length_nil]
  have e1 : subSz L r = L - r := subSz_of_le hL (by omega)
  have e2 : subSz (L - r) 2 = L - r - 2 := subSz_of_le (by omega) (by omega)
  have e3 : subSz (L - r - 2) 0 = L - r - 2 := subSz_of_le (by omega) (by omega)
  rw [e1, e2, e3]
  exact ⟨rfl, rfl⟩

theorem encode_single_line (L r : Nat) (x : List Byte) (hL : L < SZ) (hr : r + 2 ≤ L)
    (hx : x ≠ []) (hlen : paddedLen x.length ≤ L - r - 2) :
    encode ⟨L, L⟩ x r = [stdBase64 x] := by
  obtain ⟨t1, t2⟩ := threshold_self L r hL hr
  have h := encode_single ⟨L, L⟩ r (FOLD_STR_self L) x ⟨0, 0, 0⟩ [] true hx
    (by rw [t2]; simpa using hlen) (by rw [t1]; simpa using hlen)
  simpa [encode, encode_state, EncState.init] using h

/-! ## `encode`: thresholds that are multiples of 4 -/

theorem closedOK_append (c : base64) (r : Nat) (e : List (List Byte)) (l : List Byte)
    (h : ClosedOK c r e) (h0 : e = [] → FirstLineOK c r l) (h1 : e ≠ [] → NextLineOK c r l) :
    ClosedOK c r (e ++ [l]) := by
  cases e with
  | nil => exact ⟨h0 rfl, fun _ hl => by simp at hl⟩
  | cons a rest =>
    refine ⟨h.1, fun l1 hl1 => ?_⟩
    rcases List.mem_append.mp hl1 with hm | hm
    · exact h.2 l1 hm
    · rw [List.mem_singleton.mp hm]
      exact h1 (by simp)

/-- One whole group keeps the invariant. -/
theorem aligned_group (c : base64) (r : Nat) (hd1 : 4 ∣ threshold1 c r)
    (hd2 : 4 ∣ threshold2 c r) (e : List (List Byte)) (g g1 : Group3) (n n1 : Nat)
    (l : List Byte) (ll : Nat) (fl : Bool) (dp : Nat) (b0 b1 b2 : Byte)
    (h : Aligned c r ⟨e, g, n, l, ll, fl, dp⟩) :
    Aligned c r (break_line c r ⟨e, g1, n1, l ++ quad b0 b1 b2, addSz ll 4, fl, dp⟩) := by
  have hT := threshold2_lt c r
  obtain ⟨hdelim, hlen, hdiv, hlt2, hlt1, hal, hcl, hfirst, hstuck⟩ := h
  simp only at hdelim hlen hdiv hlt2 hlt1 hal hcl hfirst hstuck
  have hadd : addSz ll 4 = ll + 4 := addSz_of_lt (by omega)
  have hal2 : ∀ b ∈ l ++ quad b0 b1 b2, is_allowed b = true := by
    intro b hb
    rcases List.mem_append.mp hb with hm | hm
    · exact hal b hm
    · exact quad_allowed b0 b1 b2 b hm
  have hlen2 : (l ++ quad b0 b1 b2).length = ll + 4 := by
    rw [List.length_append, quad_length, hlen]
  rw [break_line_eq c r _ hdelim, hadd]
  simp only
  by_cases c1 : fl = true ∧ threshold1 c r ≤ ll + 4
  · rw [if_pos c1]
    have hfl := hlt1 c1.1
    have heq : ll + 4 = threshold1 c r := by omega
    refine ⟨hdelim, rfl, by simp, by simp only; omega, by simp, by simp, ?_, by simp, by simp⟩
    refine closedOK_append c r e _ hcl (fun _ => ⟨l ++ quad b0 b1 b2, hal2, Or.inl ⟨rfl, ?_⟩⟩)
      (fun hne => ?_)
    · rw [hlen2, heq]
    · have := hstuck c1.1 hne
      omega
  · rw [if_neg c1]
    by_cases c2 : threshold2 c r ≤ ll + 4
    · rw [if_pos c2]
      have heq : ll + 4 = threshold2 c r := by omega
      have hfl : fl = true → threshold2 c r < threshold1 c r := by
        intro hf
        have : ¬ threshold1 c r ≤ ll + 4 := fun hh => c1 ⟨hf, hh⟩
        omega
      refine ⟨hdelim, rfl, by simp, by simp only; omega, ?_, by simp, ?_, ?_, ?_⟩
      · intro hf
        have := hfl hf
        simp only
        omega
      · refine closedOK_append c r e _ hcl
          (fun he => ⟨l ++ quad b0 b1 b2, hal2, Or.inr ⟨rfl, by rw [hlen2, heq], ?_⟩⟩)
          (fun _ => ⟨l ++ quad b0 b1 b2, hal2, rfl, by rw [hlen2, heq]⟩)
        cases hf : fl with
        | true => exact hfl hf
        | false => exact absurd he (hfirst hf)
      · intro _
        simp
      · intro hf _
        exact hfl hf
    · rw [if_neg c2]
      refine ⟨hdelim, hlen2.symm, ?_, by simp only; omega, ?_, hal2, hcl, hfirst, hstuck⟩
      · exact (Nat.dvd_add_right hdiv).mpr (dvd_refl 4)
      · intro hf
        have : ¬ threshold1 c r ≤ ll + 4 := fun hh => c1 ⟨hf, hh⟩
        simp only
        omega

/-- The invariant holds through the main loop, and the block for the remaining characters
then closes no line. -/
theorem aligned_loop (c : base64) (r : Nat) (hd1 : 4 ∣ threshold1 c r)
    (hd2 : 4 ∣ threshold2 c r) :
    ∀ (text : List Byte) (e : List (List Byte)) (g : Group3) (l : List Byte) (ll : Nat)
      (fl : Bool) (dp : Nat), Aligned c r ⟨e, g, 0, l, ll, fl, dp⟩ →
      AlignedEnd c r (encode_rest c r (text.foldl (encode_char c r) ⟨e, g, 0, l, ll, fl, dp⟩))
  | [], e, g, l, ll, fl, dp, h => by
    rw [List.foldl_nil, encode_rest_zero c r _ rfl]
    exact ⟨h.closed, by have := h.len; have := h.lt2; simp only at *; omega,
      fun hf => by have := h.len; have := h.lt1 hf; simp only at *; omega⟩
  | [b0], e, g, l, ll, fl, dp, h => by
    obtain ⟨hdelim, hlen, hdiv, hlt2, hlt1, hal, hcl, hfirst, hstuck⟩ := h
    simp only at hdelim hlen hdiv hlt2 hlt1 hal hcl hfirst hstuck
    simp only [List.foldl_cons, List.foldl_nil]
    rw [encode_char_lt c r e g 0 l ll fl dp b0 (by decide) hlt2 hlt1,
      encode_rest_one c r e _ l ll fl dp (by omega) (fun hf => by have := hlt1 hf; omega)]
    refine ⟨hcl, ?_, fun hf => ?_⟩
    · simp only [List.length_append, stdBase64_length, List.length_singleton, paddedLen]
      omega
    · have := hlt1 hf
      simp only [List.length_append, stdBase64_length, List.length_singleton, paddedLen]
      omega
  | [b0, b1], e, g, l, ll, fl, dp, h => by
    obtain ⟨hdelim, hlen, hdiv, hlt2, hlt1, hal, hcl, hfirst, hstuck⟩ := h
    simp only at hdelim hlen hdiv hlt2 hlt1 hal hcl hfirst hstuck
    simp only [List.foldl_cons, List.foldl_nil]
    rw [encode_char_lt c r e g 0 l ll fl dp b0 (by decide) hlt2 hlt1,
      encode_char_lt c r e _ 1 l ll fl dp b1 (by decide) hlt2 hlt1,
      encode_rest_two c r e _ l ll fl dp (by omega) (fun hf => by have := hlt1 hf; omega)]
    refine ⟨hcl, ?_, fun hf => ?_⟩
    · simp only [List.length_append, stdBase64_length, List.length_cons, List.length_nil,
        paddedLen]
      omega
    · have := hlt1 hf
      simp only [List.length_append, stdBase64_length, List.length_cons, List.length_nil,
        paddedLen]
      omega
  | b0 :: b1 :: b2 :: rest, e, g, l, ll, fl, dp, h => by
    rw [encode_char_three c r e g l ll fl dp b0 b1 b2 rest h.lt2 h.lt1]
    have h3 := aligned_group c r hd1 hd2 e g ⟨b0, b1, b2⟩ 0 0 l ll fl dp b0 b1 b2 h
    have hc : (break_line c r ⟨e, ⟨b0, b1, b2⟩, 0, l ++ quad b0 b1 b2, addSz ll 4, fl, dp⟩
        ).count_3_chars = 0 := by
      rw [break_line_eq c r
        ⟨e, ⟨b0, b1, b2⟩, 0, l ++ quad b0 b1 b2, addSz ll 4, fl, dp⟩ h.delim]
      split_ifs <;> rfl
    generalize break_line c r ⟨e, ⟨b0, b1, b2⟩, 0, l ++ quad b0 b1 b2, addSz ll 4, fl, dp⟩ = s1
      at h3 hc
    obtain ⟨e1, g1, n1, l1, ll1, fl1, dp1⟩ := s1
    simp only at hc
    subst hc
    exact aligned_loop c r hd1 hd2 rest e1 g1 l1 ll1 fl1 dp1 h3

theorem aligned_init (c : base64) (r : Nat) (h1 : 0 < threshold1 c r)
    (h2 : 0 < threshold2 c r) : Aligned c r ⟨[], ⟨0, 0, 0⟩, 0, [], 0, true, 0⟩ :=
  ⟨rfl, rfl, by simp, h2, fun _ => h1, by simp, trivial, by simp, by simp⟩

theorem aligned_encode_state (c : base64) (r : Nat) (x : List Byte)
    (hd1 : 4 ∣ threshold1 c r) (hd2 : 4 ∣ threshold2 c r) (h1 : 0 < threshold1 c r)
    (h2 : 0 < threshold2 c r) : AlignedEnd c r (encode_state c x r) :=
  aligned_loop c r hd1 hd2 x [] ⟨0, 0, 0⟩ [] 0 true 0 (aligned_init c r h1 h2)

theorem FOLD_STR_length (c : base64) : (FOLD_STR c).length = fold_marker_length c := by
  unfold FOLD_STR fold_marker_length is_folding
  by_cases h : c.line1_policy_ = c.lines_policy_
  · simp [h]
  · simp [h, SPACE_STR]

theorem threshold_eq (c : base64) (r : Nat) (h1 : c.line1_policy_ < SZ)
    (h2 : c.lines_policy_ < SZ) (hp1 : r + 2 + fold_marker_length c < c.line1_policy_)
    (hp2 : r + 2 + fold_marker_length c < c.lines_policy_) :
    threshold1 c r = c.line1_policy_ - r - 2 - fold_marker_length c ∧
      threshold2 c r = c.lines_policy_ - r - 2 - fold_marker_length c := by
  unfold threshold1 threshold2
  rw [FOLD_STR_length]
  have a1 : subSz c.line1_policy_ r = c.line1_policy_ - r := subSz_of_le h1 (by omega)
  have a2 : subSz (c.line1_policy_ - r) 2 = c.line1_policy_ - r - 2 :=
    subSz_of_le (by omega) (by omega)
  have a3 : subSz (c.line1_policy_ - r - 2) (fold_marker_length c) =
      c.line1_policy_ - r - 2 - fold_marker_length c := subSz_of_le (by omega) (by omega)
  have b1 : subSz c.lines_policy_ r = c.lines_policy_ - r := subSz_of_le h2 (by omega)
  have b2 : subSz (c.lines_policy_ - r) 2 = c.lines_policy_ - r - 2 :=
    subSz_of_le (by omega) (by omega)
  have b3 : subSz (c.lines_policy_ - r - 2) (fold_marker_length c) =
      c.lines_policy_ - r - 2 - fold_marker_length c := subSz_of_le (by omega) (by omega)
  rw [a1, a2, a3, b1, b2, b3]
  exact ⟨rfl, rfl⟩

theorem fold_marker_length_le (c : base64) : fold_marker_length c ≤ 2 := by
  unfold fold_marker_length
  split <;> omega

/-- Length of the closed lines by position, for thresholds that are multiples of 4: the
first closed line is within the first-line threshold, a later one within the other
threshold plus the fold marker. -/
theorem closedOK_bound (c : base64) (r : Nat) (hd1 : 4 ∣ threshold1 c r)
    (hd2 : 4 ∣ threshold2 c r) :
    ∀ (e : List (List Byte)), ClosedOK c r e → ∀ (i : Nat) (h : i < e.length),
      (e[i]).length ≤
        if i = 0 then threshold1 c r else threshold2 c r + (FOLD_STR c).length
  | [], _, i, h => absurd h (by simp)
  | l :: rest, hc, 0, _ => by
    have hm := fold_marker_length_le c
    rw [← FOLD_STR_length] at hm
    obtain ⟨body, -, hb | hb⟩ := hc.1
    · simp only [List.getElem_cons_zero, if_true, hb.1, hb.2]
      omega
    · simp only [List.getElem_cons_zero, if_true, hb.1, List.length_append, hb.2.1]
      have := hb.2.2
      omega
  | l :: rest, hc, j + 1, h => by
    have hj : j < rest.length := by simpa using h
    obtain ⟨body, -, hb1, hb2⟩ := hc.2 rest[j] (List.getElem_mem hj)
    simp only [List.getElem_cons_succ, Nat.add_one_ne_zero, if_false]
    rw [hb1, List.length_append, hb2]
    omega

theorem closedOK_mem (c : base64) (r : Nat) (e : List (List Byte)) (h : ClosedOK c r e)
    (l : List Byte) (hl : l ∈ e) :
    ∃ body : List Byte, (∀ b ∈ body, is_allowed b = true) ∧
      (l = body ∨ l = FOLD_STR c ++ body) ∧
      (body.length = threshold1 c r ∨ body.length = threshold2 c r) := by
  cases e with
  | nil => simp at hl
  | cons a rest =>
    rcases List.mem_cons.mp hl with hm | hm
    · obtain ⟨body, hb, hc | hc⟩ := h.1
      · exact ⟨body, hb, Or.inl (hm ▸ hc.1), Or.inl hc.2⟩
      · exact ⟨body, hb, Or.inr (hm ▸ hc.1), Or.inr hc.2.1⟩
    · obtain ⟨body, hb, hc1, hc2⟩ := h.2 l hm
      exact ⟨body, hb, Or.inr hc1, Or.inr hc2⟩

/-- A line of the result that is not the last one is a closed line, at the same index. -/
theorem result_getElem (s : EncState) (i : Nat) (hi : i + 1 < s.result.length) :
    ∃ h : i < s.enc_text.length, s.result[i] = s.enc_text[i] := by
  by_cases hl : s.line = []
  · have e : s.result = s.enc_text := by simp [EncState.result, hl]
    have h : i < s.enc_text.length := by rw [e] at hi; omega
    exact ⟨h, List.getElem_of_eq e _⟩
  · have e : s.result = s.enc_text ++ [s.line] := by simp [EncState.result, hl]
    have h : i < s.enc_text.length := by
      rw [e, List.length_append, List.length_singleton] at hi; omega
    refine ⟨h, ?_⟩
    rw [List.getElem_of_eq e, List.getElem_append_left h]

theorem result_mem (s : EncState) (l : List Byte) (hl : l ∈ s.result) :
    l ∈ s.enc_text ∨ l = s.line := by
  unfold EncState.result at hl
  split_ifs at hl
  · rcases List.mem_append.mp hl with h | h
    · exact Or.inl h
    · exact Or.inr (List.mem_singleton.mp h)
  · exact Or.inl hl

theorem result_dropLast_mem (s : EncState) (l : List Byte) (hl : l ∈ s.result.dropLast) :
    l ∈ s.enc_text := by
  unfold EncState.result at hl
  split_ifs at hl
  · simpa using hl
  · exact List.mem_of_mem_dropLast hl

theorem erases_id (L : Nat) : Erases ⟨L, L⟩ id where
  app := fun _ _ => rfl
  nil := rfl
  fold := FOLD_STR_self L
  sym := fun _ _ => rfl

/-- Without folding the lines of `encode` concatenated are the standard base64 text. -/
theorem encode_flatten_self (L r : Nat) (x : List Byte) :
    (encode ⟨L, L⟩ x r).flatten = stdBase64 x := by
  rw [encode_flatten]
  have h := encode_loop_raw ⟨L, L⟩ r id (erases_id L) x EncState.init rfl rfl
  simpa [encode_state, EncState.raw, EncState.init] using h

/-- Round trip when the threshold `L - 2` is a positive multiple of 4. -/
theorem round_trip_aligned (L : Nat) (x : List Byte) (hL : L < SZ) (h6 : 6 ≤ L)
    (hd : 4 ∣ L - 2) : decode ⟨L, L⟩ (encode ⟨L, L⟩ x 0) = .ok x := by
  obtain ⟨t1, t2⟩ := threshold_self L 0 hL (by omega)
  have hlim : subSz (base64.mk L L).lines_policy_ 2 = L - 2 :=
    subSz_of_le hL (show 2 ≤ L by omega)
  have hend := aligned_encode_state ⟨L, L⟩ 0 x (by rw [t1]; simpa using hd)
    (by rw [t2]; simpa using hd) (by rw [t1]; omega) (by rw [t2]; omega)
  have hF := FOLD_STR_self L
  apply decode_of_aligned_lines _ _ _ (encode_flatten_self L 0 x)
  · intro l hl
    rw [hlim]
    rcases result_mem _ l hl with hm | hm
    · obtain ⟨body, -, hb, hlen⟩ := closedOK_mem _ _ _ hend.closed l hm
      rw [hF, List.nil_append, or_self] at hb
      rw [t1, t2, or_self] at hlen
      rw [hb, hlen]
      omega
    · have := hend.le2
      rw [t2] at this
      rw [hm]
      omega
  · intro l hl
    obtain ⟨body, hal, hb, hlen⟩ := closedOK_mem _ _ _ hend.closed l
      (result_dropLast_mem _ l hl)
    rw [hF, List.nil_append, or_self] at hb
    rw [t1, t2, or_self] at hlen
    rw [hb]
    refine ⟨?_, hal⟩
    rw [hlen]
    simpa using hd

/-- Round trip when the whole padded text fits on one line. -/
theorem round_trip_single (L : Nat) (x : List Byte) (hL : L < SZ)
    (hlen : paddedLen x.length + 2 ≤ L) : decode ⟨L, L⟩ (encode ⟨L, L⟩ x 0) = .ok x := by
  have hlim : subSz (base64.mk L L).lines_policy_ 2 = L - 2 :=
    subSz_of_le hL (show 2 ≤ L by omega)
  by_cases hx : x = []
  · subst hx
    rfl
  · rw [encode_single_line L 0 x hL (by omega) hx (by omega)]
    apply decode_of_aligned_lines _ _ _ (by simp)
    · intro l hl
      rw [List.mem_singleton.mp hl, stdBase64_length, hlim]
      omega
    · intro l hl
      simp at hl

/-! ## `decode`: the bytes of a line -/

/-- The scan of a line only reads the characters before the first padding character. -/
theorem decode_scan_takeWhile : ∀ (l : List Byte) (s : DecState),
    decode_scan s l = decode_scan s (l.takeWhile (fun b => b != EQUAL_CHAR))
  | [], _ => rfl
  | ch :: rest, s => by
    by_cases heq : ch = EQUAL_CHAR
    · simp [decode_scan, heq, List.takeWhile_cons]
    · have hne : (ch != EQUAL_CHAR) = true := by simpa using heq
      simp only [List.takeWhile_cons, hne, if_true, decode_scan, if_neg heq]
      cases hd : decode_char s ch with
      | error e => rfl
      | ok s1 => exact decode_scan_takeWhile rest s1

theorem takeWhile_length_le (l : List Byte) :
    (l.takeWhile (fun b => b != EQUAL_CHAR)).length ≤ l.length :=
  (List.takeWhile_sublist _).length_le

/-- Scanning allowed characters from an empty quad buffer: the scan succeeds, the counter
ends at the length modulo 4, and after the block for the remaining characters the bytes
`decodeQuads` have been appended. -/
theorem decode_scan_decodeQuads : ∀ (p : List Byte) (d : List Byte) (g : Group4),
    (∀ b ∈ p, is_allowed b = true) →
    ∃ s1, decode_scan ⟨d, g, 0⟩ p = .ok s1 ∧ s1.count_4_chars = p.length % 4 ∧
      (decode_rest s1).dec_text = d ++ decodeQuads p
  | [], d, g, _ => ⟨⟨d, g, 0⟩, rfl, rfl, by simp [decode_rest, decodeQuads]⟩
  | [c0], d, g, h => by
    refine ⟨⟨d, g.set 0 c0, 1⟩, ?_, rfl, ?_⟩
    · rw [decode_scan_cons_lt _ _ _ _ _ (h c0 (by simp)) (by decide)]
      rfl
    · simp [decode_rest, decodeQuads]
  | [c0, c1], d, g, h => by
    refine ⟨⟨d, (g.set 0 c0).set 1 c1, 2⟩, ?_, rfl, ?_⟩
    · rw [decode_scan_cons_lt _ _ _ _ _ (h c0 (by simp)) (by decide),
        decode_scan_cons_lt _ _ _ _ _ (h c1 (by simp)) (by decide)]
      rfl
    · simp [decode_rest, decodeQuads, Group4.zeroFrom, Group4.set, List.range']
  | [c0, c1, c2], d, g, h => by
    refine ⟨⟨d, ((g.set 0 c0).set 1 c1).set 2 c2, 3⟩, ?_, rfl, ?_⟩
    · rw [decode_scan_cons_lt _ _ _ _ _ (h c0 (by simp)) (by decide),
        decode_scan_cons_lt _ _ _ _ _ (h c1 (by simp)) (by decide),
        decode_scan_cons_lt _ _ _ _ _ (h c2 (by simp)) (by decide)]
      rfl
    · simp [decode_rest, decodeQuads, Group4.zeroFrom, Group4.set, List.range']
  | c0 :: c1 :: c2 :: c3 :: rest, d, g, h => by
    obtain ⟨s1, h1, h2, h3⟩ := decode_scan_decodeQuads rest
      (d ++ (unpack (findAll ⟨c0, c1, c2, c3⟩)).toList) (findAll ⟨c0, c1, c2, c3⟩)
      (fun b hb => h b (by simp [hb]))
    refine ⟨s1, ?_, ?_, ?_⟩
    · rw [decode_scan_cons_lt _ _ _ _ _ (h c0 (by simp)) (by decide),
        decode_scan_cons_lt _ _ _ _ _ (h c1 (by simp)) (by decide),
        decode_scan_cons_lt _ _ _ _ _ (h c2 (by simp)) (by decide),
        decode_scan_cons_three _ _ _ _ (h c3 (by simp))]
      simpa [Group4.set] using h1
    · rw [h2]
      simp only [List.length_cons]
      omega
    · rw [h3, decodeQuads, List.append_assoc]

theorem decodeQuads_length : ∀ p : List Byte,
    (decodeQuads p).length =
      3 * (p.length / 4) + (if p.length % 4 = 2 then 1 else if p.length % 4 = 3 then 2 else 0)
  | [] => by simp [decodeQuads]
  | [_] => by simp [decodeQuads]
  | [_, _] => by simp [decodeQuads, Group3.toList]
  | [_, _, _] => by simp [decodeQuads, Group3.toList]
  | c0 :: c1 :: c2 :: c3 :: rest => by
    have ih := decodeQuads_length rest
    have e1 : (c0 :: c1 :: c2 :: c3 :: rest).length / 4 = rest.length / 4 + 1 := by
      simp only [List.length_cons]; omega
    have e2 : (c0 :: c1 :: c2 :: c3 :: rest).length % 4 = rest.length % 4 := by
      simp only [List.length_cons]; omega
    rw [decodeQuads, List.length_append, ih, e1, e2]
    simp only [Group3.toList, List.length_cons, List.length_nil]
    omega

/-- The bytes of one line: the state after `decode_line` from an empty quad buffer. -/
theorem decode_line_decodeQuads (c : base64) (l : List Byte) (d : List Byte) (g : Group4)
    (hlen : l.length ≤ subSz c.lines_policy_ 2)
    (hal : ∀ b ∈ l.takeWhile (fun b => b != EQUAL_CHAR), is_allowed b = true) :
    ∃ s1, decode_line c ⟨d, g, 0⟩ l = .ok s1 ∧
      s1.count_4_chars = (l.takeWhile (fun b => b != EQUAL_CHAR)).length % 4 ∧
      s1.dec_text = d ++ decodeQuads (l.takeWhile (fun b => b != EQUAL_CHAR)) := by
  obtain ⟨s1, h1, h2, h3⟩ := decode_scan_decodeQuads _ d g hal
  refine ⟨decode_rest s1, ?_, ?_, h3⟩
  · simp only [decode_line, if_neg (Nat.not_lt.mpr hlen)]
    rw [decode_scan_takeWhile, h1]
  · rw [← h2]
    unfold decode_rest
    split <;> rfl

/-- The single-string `decode` of a line within the limit whose scanned characters are
allowed. -/
theorem decode_string_decodeQuads (c : base64) (l : List Byte)
    (hlen : l.length ≤ subSz c.lines_policy_ 2)
    (hal : ∀ b ∈ l.takeWhile (fun b => b != EQUAL_CHAR), is_allowed b = true) :
    decode_string c l = .ok (decodeQuads (l.takeWhile (fun b => b != EQUAL_CHAR))) := by
  obtain ⟨s1, h1, -, h3⟩ := decode_line_decodeQuads c l [] ⟨0, 0, 0, 0⟩ hlen hal
  simp only [decode_string, decode, decode_lines, DecState.init, h1, h3, List.nil_append]

/-- Lines within the limit whose scanned characters are allowed and, for all lines but the
last, come in whole groups of 4: `decode_lines` appends the bytes of each line in order. -/
theorem decode_lines_decodeQuads (c : base64) : ∀ (lines : List (List Byte)) (d : List Byte)
    (g : Group4),
    (∀ l ∈ lines, l.length ≤ subSz c.lines_policy_ 2 ∧
      ∀ b ∈ l.takeWhile (fun b => b != EQUAL_CHAR), is_allowed b = true) →
    (∀ l ∈ lines.dropLast, 4 ∣ (l.takeWhile (fun b => b != EQUAL_CHAR)).length) →
    ∃ s1, decode_lines c ⟨d, g, 0⟩ lines = .ok s1 ∧
      s1.dec_text = d ++ (lines.map
        (fun l => decodeQuads (l.takeWhile (fun b => b != EQUAL_CHAR)))).flatten
  | [], d, g, _, _ => ⟨⟨d, g, 0⟩, rfl, by simp⟩
  | [l], d, g, h, _ => by
    obtain ⟨s1, h1, -, h3⟩ := decode_line_decodeQuads c l d g (h l (by simp)).1 (h l (by simp)).2
    exact ⟨s1, by simp [decode_lines, h1], by simp [h3]⟩
  | l :: l2 :: rest, d, g, h, hq => by
    obtain ⟨s1, h1, h2, h3⟩ := decode_line_decodeQuads c l d g (h l (by simp)).1
      (h l (by simp)).2
    have hz : s1.count_4_chars = 0 := by
      have hd := hq l (by simp)
      rw [h2]
      omega
    obtain ⟨d1, g1, n1⟩ := s1
    simp only at hz h3
    subst hz
    obtain ⟨s2, k1, k2⟩ := decode_lines_decodeQuads c (l2 :: rest) d1 g1
      (fun x hx => h x (List.mem_cons_of_mem _ hx))
      (fun x hx => hq x (by simp only [List.dropLast_cons₂]; exact List.mem_cons_of_mem _ hx))
    refine ⟨s2, ?_, ?_⟩
    · simp only [decode_lines, h1]
      exact k1
    · rw [k2, h3]
      simp

theorem takeWhile_of_allowed (s : List Byte) (h : ∀ b ∈ s, is_allowed b = true) :
    s.takeWhile (fun b => b != EQUAL_CHAR) = s := by
  rw [List.takeWhile_eq_self_iff]
  intro b hb
  simpa using is_allowed_ne_equal b (h b hb)

/-- Completing a remainder of two characters with two more characters keeps the bytes
decoded so far and adds two bytes. -/
theorem decodeQuads_pad_two (u v : Byte) : ∀ s : List Byte, s.length % 4 = 2 →
    ∃ x y, decodeQuads (s ++ [u, v]) = decodeQuads s ++ [x, y]
  | [], h => by simp at h
  | [_], h => by simp at h
  | [c0, c1], _ =>
    ⟨(unpack (findAll ⟨c0, c1, u, v⟩)).a1, (unpack (findAll ⟨c0, c1, u, v⟩)).a2, by
      simp [decodeQuads, Group3.toList, unpack, findAll]⟩
  | [_, _, _], h => by simp at h
  | c0 :: c1 :: c2 :: c3 :: rest, h => by
    obtain ⟨x, y, hxy⟩ := decodeQuads_pad_two u v rest
      (by simp only [List.length_cons] at h; omega)
    refine ⟨x, y, ?_⟩
    have e : (c0 :: c1 :: c2 :: c3 :: rest) ++ [u, v] =
        c0 :: c1 :: c2 :: c3 :: (rest ++ [u, v]) := rfl
    rw [e, decodeQuads, decodeQuads, hxy, List.append_assoc]

/-- Completing a remainder of three characters with one more character keeps the bytes
decoded so far and adds one byte. -/
theorem decodeQuads_pad_one (u : Byte) : ∀ s : List Byte, s.length % 4 = 3 →
    ∃ x, decodeQuads (s ++ [u]) = decodeQuads s ++ [x]
  | [], h => by simp at h
  | [_], h => by simp at h
  | [_, _], h => by simp at h
  | [c0, c1, c2], _ =>
    ⟨(unpack (findAll ⟨c0, c1, c2, u⟩)).a2, by
      simp [decodeQuads, Group3.toList, unpack, findAll]⟩
  | c0 :: c1 :: c2 :: c3 :: rest, h => by
    obtain ⟨x, hx⟩ := decodeQuads_pad_one u rest
      (by simp only [List.length_cons] at h; omega)
    refine ⟨x, ?_⟩
    have e : (c0 :: c1 :: c2 :: c3 :: rest) ++ [u] = c0 :: c1 :: c2 :: c3 :: (rest ++ [u]) :=
      rfl
    rw [e, decodeQuads, decodeQuads, hx, List.append_assoc]

/-! ## Index ranges -/

set_option maxRecDepth 100000 in
theorem byte_sextets_lt : ∀ b : Byte, b.val / 4 < 64 ∧ b.val % 4 * 16 < 64 ∧ b.val / 16 < 16 ∧
    b.val % 16 * 4 < 64 ∧ b.val / 64 < 4 ∧ b.val % 64 < 64 := by
  decide

theorem pack_lt (g : Group3) :
    (pack g).a0.val < 64 ∧ (pack g).a1.val < 64 ∧ (pack g).a2.val < 64 ∧
      (pack g).a3.val < 64 := by
  have h0 := g.a0.isLt
  have h1 := g.a1.isLt
  have h2 := g.a2.isLt
  obtain ⟨e1, e2, -⟩ := byte_bits g.a0
  obtain ⟨-, -, f3, f4, -⟩ := byte_bits g.a1
  obtain ⟨-, -, -, -, g5, g6, -⟩ := byte_bits g.a2
  simp only [pack, toByte_val, e1, e2, f3, f4, g5, g6]
  refine ⟨?_, ?_, ?_, ?_⟩ <;> omega

theorem CHARSET_length : CHARSET.length = 64 := by decide

theorem break_line_count (c : base64) (r : Nat) (s : EncState) :
    (break_line c r s).count_3_chars = s.count_3_chars := by
  unfold break_line add_new_line
  split_ifs <;> rfl

theorem encode_char_count (c : base64) (r : Nat) (s : EncState) (ch : Byte) :
    (encode_char c r s ch).count_3_chars =
      if s.count_3_chars + 1 = 3 then 0 else s.count_3_chars + 1 := by
  unfold encode_char
  rw [break_line_count]
  simp only
  split_ifs <;> rfl

/-- The group counter is at most 2 whenever the main loop of `encode` starts an iteration. -/
theorem encode_loop_count (c : base64) (r : Nat) : ∀ (pre : List Byte) (s : EncState),
    s.count_3_chars ≤ 2 → (pre.foldl (encode_char c r) s).count_3_chars ≤ 2
  | [], _, h => h
  | ch :: rest, s, h => by
    rw [List.foldl_cons]
    apply encode_loop_count c r rest
    rw [encode_char_count]
    split_ifs <;> omega

theorem decode_char_count (s s1 : DecState) (ch : Byte) (h : s.count_4_chars ≤ 3)
    (hd : decode_char s ch = .ok s1) : s1.count_4_chars ≤ 3 := by
  by_cases hal : is_allowed ch = true
  · rw [decode_char_of_allowed s ch hal] at hd
    injection hd with hd
    rw [← hd]
    split_ifs
    · exact Nat.zero_le _
    · simp only
      omega
  · simp [decode_char, hal] at hd

theorem decode_scan_count : ∀ (l : List Byte) (s s1 : DecState), s.count_4_chars ≤ 3 →
    decode_scan s l = .ok s1 → s1.count_4_chars ≤ 3
  | [], s, s1, h, hd => by
    injection hd with hd
    rw [← hd]
    exact h
  | ch :: rest, s, s1, h, hd => by
    unfold decode_scan at hd
    split_ifs at hd with heq
    · injection hd with hd
      rw [← hd]
      exact h
    · cases hc : decode_char s ch with
      | error e => rw [hc] at hd; simp at hd
      | ok s2 =>
        rw [hc] at hd
        exact decode_scan_count rest s2 s1 (decode_char_count s s2 ch h hc) hd

theorem decode_rest_count (s : DecState) :
    (decode_rest s).count_4_chars = s.count_4_chars := by
  unfold decode_rest
  split <;> rfl

theorem decode_lines_count (c : base64) : ∀ (lines : List (List Byte)) (s s1 : DecState),
    s.count_4_chars ≤ 3 → decode_lines c s lines = .ok s1 → s1.count_4_chars ≤ 3
  | [], s, s1, h, hd => by
    injection hd with hd
    rw [← hd]
    exact h
  | l :: rest, s, s1, h, hd => by
    by_cases hlen : l.length > subSz c.lines_policy_ 2
    · simp [decode_lines, decode_line, hlen] at hd
    · cases hs : decode_scan s l with
      | error e => simp [decode_lines, decode_line, hlen, hs] at hd
      | ok s2 =>
        simp only [decode_lines, decode_line, if_neg hlen, hs] at hd
        refine decode_lines_count c rest (decode_rest s2) s1 ?_ hd
        rw [decode_rest_count]
        exact decode_scan_count l s s2 h hs

/-! ## `encode`: equal limits -/

set_option maxRecDepth 100000 in
theorem alphabet_mem_CHARSET : ∀ i : Fin 64, alphabet i.val ∈ CHARSET := by decide

theorem sextet_mem_CHARSET (n k : Nat) : sextet n k ∈ CHARSET :=
  alphabet_mem_CHARSET ⟨n / 2 ^ (18 - 6 * k) % 64, sextet_lt n k⟩

/-- Every character of a standard base64 text is an alphabet character or the padding
character, and none is a space. -/
theorem stdBase64_mem : ∀ (x : List Byte) (b : Byte), b ∈ stdBase64 x →
    b ≠ 32 ∧ (b ∈ CHARSET ∨ b = EQUAL_CHAR)
  | [], b, h => by simp [stdBase64] at h
  | [b0], b, h => by
    simp only [stdBase64, List.mem_cons, List.mem_singleton, List.not_mem_nil, or_false] at h
    rcases h with h | h | h | h <;> rw [h]
    · exact ⟨(sextet_facts _ _).2.2, Or.inl (sextet_mem_CHARSET _ _)⟩
    · exact ⟨(sextet_facts _ _).2.2, Or.inl (sextet_mem_CHARSET _ _)⟩
    · exact ⟨by decide, Or.inr rfl⟩
    · exact ⟨by decide, Or.inr rfl⟩
  | [b0, b1], b, h => by
    simp only [stdBase64, List.mem_cons, List.mem_singleton, List.not_mem_nil, or_false] at h
    rcases h with h | h | h | h <;> rw [h]
    · exact ⟨(sextet_facts _ _).2.2, Or.inl (sextet_mem_CHARSET _ _)⟩
    · exact ⟨(sextet_facts _ _).2.2, Or.inl (sextet_mem_CHARSET _ _)⟩
    · exact ⟨(sextet_facts _ _).2.2, Or.inl (sextet_mem_CHARSET _ _)⟩
    · exact ⟨by decide, Or.inr rfl⟩
  | b0 :: b1 :: b2 :: rest, b, h => by
    simp only [stdBase64, List.mem_cons] at h
    rcases h with h | h | h | h | h
    · rw [h]; exact ⟨(sextet_facts _ _).2.2, Or.inl (sextet_mem_CHARSET _ _)⟩
    · rw [h]; exact ⟨(sextet_facts _ _).2.2, Or.inl (sextet_mem_CHARSET _ _)⟩
    · rw [h]; exact ⟨(sextet_facts _ _).2.2, Or.inl (sextet_mem_CHARSET _ _)⟩
    · rw [h]; exact ⟨(sextet_facts _ _).2.2, Or.inl (sextet_mem_CHARSET _ _)⟩
    · exact stdBase64_mem rest b h

theorem result_mem_ne (s : EncState) (l : List Byte) (hl : l ∈ s.result) :
    l ∈ s.enc_text ∨ (l = s.line ∧ s.line ≠ []) := by
  unfold EncState.result at hl
  split_ifs at hl with hne
  · rcases List.mem_append.mp hl with h | h
    · exact Or.inl h
    · exact Or.inr ⟨List.mem_singleton.mp h, hne⟩
  · exact Or.inl hl

/-- The lines of `encode` when both limits are `L` and `L - 2` is a positive multiple
of 4: closed lines have `L - 2` allowed characters, the last line at most `L - 2`. -/
theorem aligned_lines_self (L : Nat) (x : List Byte) (hL : L < SZ) (h6 : 6 ≤ L)
    (hd : 4 ∣ L - 2) :
    (∀ l ∈ encode ⟨L, L⟩ x 0, l.length ≤ L - 2) ∧
      (∀ l ∈ (encode ⟨L, L⟩ x 0).dropLast, l.length = L - 2) := by
  obtain ⟨t1, t2⟩ := threshold_self L 0 hL (by omega)
  have hend := aligned_encode_state ⟨L, L⟩ 0 x (by rw [t1]; simpa using hd)
    (by rw [t2]; simpa using hd) (by rw [t1]; omega) (by rw [t2]; omega)
  have hF := FOLD_STR_self L
  have hclosed : ∀ l ∈ (encode_state ⟨L, L⟩ x 0).enc_text, l.length = L - 2 := by
    intro l hm
    obtain ⟨body, -, hb, hlen⟩ := closedOK_mem _ _ _ hend.closed l hm
    rw [hF, List.nil_append, or_self] at hb
    rw [t1, t2, or_self] at hlen
    rw [hb, hlen]
    omega
  constructor
  · intro l hl
    rcases result_mem _ l hl with hm | hm
    · exact Nat.le_of_eq (hclosed l hm)
    · have := hend.le2
      rw [t2] at this
      rw [hm]
      omega
  · intro l hl
    exact hclosed l (result_dropLast_mem _ l hl)

/-! ## `encode`: equal limits and any positive threshold -/

theorem break_line_delim (c : base64) (r : Nat) (s : EncState) (h : s.delim_pos = 0) :
    (break_line c r s).delim_pos = 0 := by
  rw [break_line_eq c r s h]
  split_ifs <;> exact h

/-- The line-closing statement under the invariant without folding: a buffer that has
reached the threshold is closed, and afterwards the counter is below the threshold. -/
theorem break_line_unfolded (c : base64) (r : Nat) (hF : FOLD_STR c = [])
    (hT : threshold1 c r = threshold2 c r) (hpos : 0 < threshold2 c r) (s : EncState)
    (hdelim : s.delim_pos = 0) (hlen : s.line_len = s.line.length)
    (hclosed : ∀ l ∈ s.enc_text,
      l.length = 4 * ((threshold2 c r + 3) / 4) ∨ l.length = threshold2 c r)
    (hcase : s.line_len < threshold2 c r ∨
      s.line_len = 4 * ((threshold2 c r + 3) / 4) ∨ s.line_len = threshold2 c r) :
    Unfolded c r (break_line c r s) ∧ (break_line c r s).line_len < threshold2 c r ∧
      (4 ∣ s.line_len → 4 ∣ (break_line c r s).line_len) ∧
      (break_line c r s).line.length ≤ s.line.length ∧
      (break_line c r s).count_3_chars = s.count_3_chars := by
  have hpush : threshold2 c r ≤ s.line_len → ∀ l ∈ s.enc_text ++ [s.line],
      l.length = 4 * ((threshold2 c r + 3) / 4) ∨ l.length = threshold2 c r := by
    intro hge l hl
    rcases List.mem_append.mp hl with h | h
    · exact hclosed l h
    · rw [List.mem_singleton.mp h, ← hlen]
      omega
  rw [break_line_eq c r s hdelim]
  by_cases c1 : s.is_first_line = true ∧ threshold1 c r ≤ s.line_len
  · rw [if_pos c1]
    exact ⟨⟨hdelim, rfl, Nat.zero_le _, hpush (hT ▸ c1.2)⟩, hpos, fun _ => Nat.dvd_zero 4,
      Nat.zero_le _, rfl⟩
  · rw [if_neg c1]
    by_cases c2 : threshold2 c r ≤ s.line_len
    · rw [if_pos c2]
      refine ⟨⟨hdelim, rfl, Nat.zero_le _, ?_⟩, hpos, fun _ => Nat.dvd_zero 4,
        Nat.zero_le _, rfl⟩
      simp only [hF, List.nil_append]
      exact hpush c2
    · rw [if_neg c2]
      exact ⟨⟨hdelim, hlen, by omega, hclosed⟩, by omega, fun h => h, Nat.le_refl _, rfl⟩

theorem encode_symbol_unfolded (c : base64) (r : Nat) (hF : FOLD_STR c = [])
    (hT : threshold1 c r = threshold2 c r) (hpos : 0 < threshold2 c r) (g6 : Group4)
    (s : EncState) (i : Nat) (h : Unfolded c r s) : Unfolded c r (encode_symbol c r g6 s i) := by
  have hsz := threshold2_lt c r
  obtain ⟨hu, hlt, -, -, -⟩ := break_line_unfolded c r hF hT hpos s h.delim h.len h.closed
    (by have := h.le; omega)
  unfold encode_symbol
  have hadd : addSz (break_line c r s).line_len 1 = (break_line c r s).line_len + 1 :=
    addSz_of_lt (by omega)
  refine ⟨hu.delim, ?_, ?_, hu.closed⟩
  · simp only
    rw [hadd, List.length_append, List.length_singleton, hu.len]
  · simp only [hadd]
    omega

theorem encode_pad_unfolded (c : base64) (r : Nat) (hF : FOLD_STR c = [])
    (hT : threshold1 c r = threshold2 c r) (hpos : 0 < threshold2 c r)
    (s : EncState) (h : Unfolded c r s) : Unfolded c r (encode_pad c r s) := by
  have hsz := threshold2_lt c r
  obtain ⟨hu, hlt, -, -, -⟩ := break_line_unfolded c r hF hT hpos
    { s with count_3_chars := s.count_3_chars + 1 } h.delim h.len h.closed
    (by have := h.le; simp only; omega)
  unfold encode_pad
  have hadd : addSz (break_line c r { s with count_3_chars := s.count_3_chars + 1 }).line_len 1
      = (break_line c r { s with count_3_chars := s.count_3_chars + 1 }).line_len + 1 :=
    addSz_of_lt (by omega)
  refine ⟨hu.delim, ?_, ?_, hu.closed⟩
  · simp only
    rw [hadd, List.length_append, List.length_singleton, hu.len]
  · simp only [hadd]
    omega

theorem foldl_symbol_unfolded (c : base64) (r : Nat) (hF : FOLD_STR c = [])
    (hT : threshold1 c r = threshold2 c r) (hpos : 0 < threshold2 c r) (g6 : Group4) :
    ∀ (is : List Nat) (s : EncState), Unfolded c r s →
      Unfolded c r (is.foldl (encode_symbol c r g6) s)
  | [], _, h => h
  | i :: rest, s, h =>
    foldl_symbol_unfolded c r hF hT hpos g6 rest _
      (encode_symbol_unfolded c r hF hT hpos g6 s i h)

theorem foldl_pad_unfolded (c : base64) (r : Nat) (hF : FOLD_STR c = [])
    (hT : threshold1 c r = threshold2 c r) (hpos : 0 < threshold2 c r) :
    ∀ (is : List Nat) (s : EncState), Unfolded c r s →
      Unfolded c r (is.foldl (fun st _ => encode_pad c r st) s)
  | [], _, h => h
  | _ :: rest, s, h =>
    foldl_pad_unfolded c r hF hT hpos rest _ (encode_pad_unfolded c r hF hT hpos s h)

/-- The block for the remaining characters keeps the invariant without folding. -/
theorem encode_rest_unfolded (c : base64) (r : Nat) (hF : FOLD_STR c = [])
    (hT : threshold1 c r = threshold2 c r) (hpos : 0 < threshold2 c r)
    (s : EncState) (h : Unfolded c r s) : Unfolded c r (encode_rest c r s) := by
  unfold encode_rest
  split_ifs
  · have h0 : Unfolded c r { s with group_8bit := s.group_8bit.zeroFrom s.count_3_chars } :=
      ⟨h.delim, h.len, h.le, h.closed⟩
    have h1 := foldl_symbol_unfolded c r hF hT hpos
      (pack (s.group_8bit.zeroFrom s.count_3_chars)) (List.range (s.count_3_chars + 1)) _ h0
    have h2 := foldl_pad_unfolded c r hF hT hpos (List.range (3 - s.count_3_chars)) _ h1
    exact ⟨h2.delim, h2.len, h2.le, h2.closed⟩
  · exact h

/-- The invariant without folding holds through the main loop and the block for the
remaining characters, as long as the length counter cannot wrap around. -/
theorem unfolded_loop (c : base64) (r : Nat) (hF : FOLD_STR c = [])
    (hT : threshold1 c r = threshold2 c r) (hpos : 0 < threshold2 c r) :
    ∀ (text : List Byte) (e : List (List Byte)) (g : Group3) (l : List Byte) (ll : Nat)
      (fl : Bool) (dp : Nat), Unfolded c r ⟨e, g, 0, l, ll, fl, dp⟩ →
      ll < threshold2 c r → 4 ∣ ll → l.length + paddedLen text.length < SZ →
      Unfolded c r (encode_rest c r (text.foldl (encode_char c r) ⟨e, g, 0, l, ll, fl, dp⟩))
  | [], e, g, l, ll, fl, dp, h, _, _, _ => by
    rw [List.foldl_nil]
    exact encode_rest_unfolded c r hF hT hpos _ h
  | [b0], e, g, l, ll, fl, dp, h, hlt, _, _ => by
    simp only [List.foldl_cons, List.foldl_nil]
    rw [encode_char_lt c r e g 0 l ll fl dp b0 (by decide) hlt (fun _ => by omega)]
    exact encode_rest_unfolded c r hF hT hpos _ ⟨h.delim, h.len, h.le, h.closed⟩
  | [b0, b1], e, g, l, ll, fl, dp, h, hlt, _, _ => by
    simp only [List.foldl_cons, List.foldl_nil]
    rw [encode_char_lt c r e g 0 l ll fl dp b0 (by decide) hlt (fun _ => by omega),
      encode_char_lt c r e _ 1 l ll fl dp b1 (by decide) hlt (fun _ => by omega)]
    exact encode_rest_unfolded c r hF hT hpos _ ⟨h.delim, h.len, h.le, h.closed⟩
  | b0 :: b1 :: b2 :: rest, e, g, l, ll, fl, dp, h, hlt, hdiv, hsz => by
    have hlen : ll = l.length := h.len
    have hp : paddedLen (b0 :: b1 :: b2 :: rest).length = paddedLen rest.length + 4 :=
      paddedLen_add_three _
    rw [hp] at hsz
    rw [encode_char_three c r e g l ll fl dp b0 b1 b2 rest hlt (fun _ => by omega),
      addSz_of_lt (by omega)]
    obtain ⟨hu, hlt2, hdiv2, hle2, hcnt⟩ := break_line_unfolded c r hF hT hpos
      ⟨e, ⟨b0, b1, b2⟩, 0, l ++ quad b0 b1 b2, ll + 4, fl, dp⟩ h.delim
      (by simp only [List.length_append, quad_length, hlen]) h.closed
      (by simp only; omega)
    have hdiv3 := hdiv2 ((Nat.dvd_add_right hdiv).mpr (dvd_refl 4))
    simp only [List.length_append, quad_length] at hle2
    generalize break_line c r ⟨e, ⟨b0, b1, b2⟩, 0, l ++ quad b0 b1 b2, ll + 4, fl, dp⟩ = s1
      at hu hlt2 hdiv3 hle2 hcnt
    obtain ⟨e1, g1, n1, l1, ll1, fl1, dp1⟩ := s1
    simp only at hcnt hlt2 hdiv3 hle2
    subst hcnt
    exact unfolded_loop c r hF hT hpos rest e1 g1 l1 ll1 fl1 dp1 hu hlt2 hdiv3 (by omega)

theorem unfolded_encode_state (L r : Nat) (x : List Byte) (hL : L < SZ)
    (hpos : 1 ≤ L - r - 2) (hx : paddedLen x.length < SZ) :
    Unfolded ⟨L, L⟩ r (encode_state ⟨L, L⟩ x r) := by
  obtain ⟨t1, t2⟩ := threshold_self L r hL (by omega)
  exact unfolded_loop ⟨L, L⟩ r (FOLD_STR_self L) (t1.trans t2.symm) (by rw [t2]; omega) x []
    ⟨0, 0, 0⟩ [] 0 true 0
    ⟨rfl, rfl, Nat.zero_le _, fun _ hl => by simp at hl⟩ (by rw [t2]; omega) (Nat.dvd_zero 4)
    (by simpa using hx)

/-! ## `encode`: `delim_pos` -/

theorem encode_char_delim (c : base64) (r : Nat) (s : EncState) (ch : Byte)
    (h : s.delim_pos = 0) : (encode_char c r s ch).delim_pos = 0 := by
  unfold encode_char
  apply break_line_delim
  simp only
  split_ifs <;> exact h

theorem encode_symbol_delim (c : base64) (r : Nat) (g6 : Group4) (s : EncState) (i : Nat)
    (h : s.delim_pos = 0) : (encode_symbol c r g6 s i).delim_pos = 0 := by
  unfold encode_symbol
  exact break_line_delim c r s h

theorem encode_pad_delim (c : base64) (r : Nat) (s : EncState) (h : s.delim_pos = 0) :
    (encode_pad c r s).delim_pos = 0 := by
  unfold encode_pad
  exact break_line_delim c r _ h

theorem foldl_symbol_delim (c : base64) (r : Nat) (g6 : Group4) : ∀ (is : List Nat)
    (s : EncState), s.delim_pos = 0 → (is.foldl (encode_symbol c r g6) s).delim_pos = 0
  | [], _, h => h
  | i :: rest, s, h => foldl_symbol_delim c r g6 rest _ (encode_symbol_delim c r g6 s i h)

theorem foldl_pad_delim (c : base64) (r : Nat) : ∀ (is : List Nat) (s : EncState),
    s.delim_pos = 0 → (is.foldl (fun st _ => encode_pad c r st) s).delim_pos = 0
  | [], _, h => h
  | _ :: rest, s, h => foldl_pad_delim c r rest _ (encode_pad_delim c r s h)

theorem encode_rest_delim (c : base64) (r : Nat) (s : EncState) (h : s.delim_pos = 0) :
    (encode_rest c r s).delim_pos = 0 := by
  unfold encode_rest
  split_ifs
  · exact foldl_pad_delim c r _ _ (foldl_symbol_delim c r _ _ _ h)
  · exact h

theorem encode_loop_delim (c : base64) (r : Nat) : ∀ (text : List Byte) (s : EncState),
    s.delim_pos = 0 → (text.foldl (encode_char c r) s).delim_pos = 0
  | [], _, h => h
  | ch :: rest, s, h => encode_loop_delim c r rest _ (encode_char_delim c r s ch h)

/-! ## The claims -/

/-- C1 (the code at the failing inputs): with both limits 8 (threshold 6) the six bytes
`ManMan` are encoded as one line of 8 characters, because the main loop tests the threshold
only after appending a whole group, and `decode` of the same codec rejects that line since
8 exceeds `8 - 2`. With both limits 7 (threshold 5) the four bytes `ManM` are encoded as
`TWFuT` and `Q==`, both within the limit of `decode`, which returns the four bytes
`4d 61 6e fd` without error: the last quad is split over two lines and `count_4_chars` is
not reset after the partial-group block of the first line. -/
theorem C1_round_trip_fails :
    (encode ⟨8, 8⟩ (bytes "ManMan") 0 = [bytes "TWFuTWFu"] ∧
      decode ⟨8, 8⟩ (encode ⟨8, 8⟩ (bytes "ManMan") 0) = .error .bad_line_policy) ∧
    (encode ⟨7, 7⟩ (bytes "ManM") 0 = [bytes "TWFuT", bytes "Q=="] ∧
      decode ⟨7, 7⟩ (encode ⟨7, 7⟩ (bytes "ManM") 0) = .ok [77, 97, 110, 253] ∧
      bytes "ManM" = [77, 97, 110, 77]) := by
  decide

/-- C2: with both limits equal to `L`, reserved `r` with `r + 2 ≤ L`, and a non-empty input
whose padded base64 length is at most `L - r - 2`, `encode` returns exactly one line, the
standard padded base64 text of the input. -/
theorem C2_single_line_standard (L r : Nat) (x : List Byte) (hL : L < SZ) (hr : r + 2 ≤ L)
    (hx : x ≠ []) (hlen : paddedLen x.length ≤ L - r - 2) :
    encode ⟨L, L⟩ x r = [stdBase64 x] :=
  encode_single_line L r x hL hr hx hlen

/-- C2, instances: the three known vectors `Man`, `Ma` and `M`. -/
theorem C2_single_line_standard_witness :
    encode ⟨78, 78⟩ (bytes "Man") 0 = [bytes "TWFu"] ∧
      encode ⟨78, 78⟩ (bytes "Ma") 0 = [bytes "TWE="] ∧
      encode ⟨78, 78⟩ (bytes "M") 0 = [bytes "TQ=="] :=
  ⟨(C2_single_line_standard 78 0 (bytes "Man") (by norm_num [SZ]) (by decide) (by decide)
      (by decide)).trans (by decide),
    (C2_single_line_standard 78 0 (bytes "Ma") (by norm_num [SZ]) (by decide) (by decide)
      (by decide)).trans (by decide),
    (C2_single_line_standard 78 0 (bytes "M") (by norm_num [SZ]) (by decide) (by decide)
      (by decide)).trans (by decide)⟩

/-- C3: when the padded base64 length of `x` is at most `other_lines_limit - 2`, the
single-string `decode` of the standard padded base64 text of `x` succeeds and returns
`x`. -/
theorem C3_decode_standard (c : base64) (x : List Byte) (hL : c.lines_policy_ < SZ)
    (hlen : paddedLen x.length ≤ c.lines_policy_ - 2) :
    decode_string c (stdBase64 x) = .ok x := by
  apply decode_of_aligned_lines c [stdBase64 x] x (by simp)
  · intro l hl
    rw [List.mem_singleton.mp hl, stdBase64_length]
    by_cases h2 : 2 ≤ c.lines_policy_
    · rw [subSz_of_le hL h2]
      exact hlen
    · have : paddedLen x.length = 0 := by omega
      rw [this]
      exact Nat.zero_le _
  · intro l hl
    simp at hl

/-- C3, instances: the three known vectors decode to `Man`, `Ma` and `M`. -/
theorem C3_decode_standard_witness :
    decode_string ⟨78, 78⟩ (bytes "TWFu") = .ok (bytes "Man") ∧
      decode_string ⟨78, 78⟩ (bytes "TWE=") = .ok (bytes "Ma") ∧
      decode_string ⟨78, 78⟩ (bytes "TQ==") = .ok (bytes "M") :=
  ⟨(show stdBase64 (bytes "Man") = bytes "TWFu" by decide) ▸
      C3_decode_standard ⟨78, 78⟩ (bytes "Man") (by norm_num [SZ]) (by decide),
    (show stdBase64 (bytes "Ma") = bytes "TWE=" by decide) ▸
      C3_decode_standard ⟨78, 78⟩ (bytes "Ma") (by norm_num [SZ]) (by decide),
    (show stdBase64 (bytes "M") = bytes "TQ==" by decide) ▸
      C3_decode_standard ⟨78, 78⟩ (bytes "M") (by norm_num [SZ]) (by decide)⟩

/-- C4 (as stated, refuted): with limits 8 and 12 (thresholds 4 and 8) the second line of
the encoding of twelve bytes carries the two-character fold marker and has 10 characters,
more than its threshold 8; with both limits 7 (threshold 5) the first line of the encoding
of nine bytes has 8 characters. Neither line is the last one. -/
theorem C4_counterexample :
    (encode ⟨8, 12⟩ (bytes "ManManManMan") 0 =
        [bytes "TWFu", bytes "  TWFuTWFu", bytes "TWFu"] ∧
      12 - 0 - 2 - fold_marker_length ⟨8, 12⟩ < (bytes "  TWFuTWFu").length) ∧
    (encode ⟨7, 7⟩ (bytes "ManManMan") 0 = [bytes "TWFuTWFu", bytes "TWFu"] ∧
      7 - 0 - 2 - fold_marker_length ⟨7, 7⟩ < (bytes "TWFuTWFu").length) := by
  decide

/-- C4 (amended): when the two effective thresholds `limit - r - 2 - fold_marker_length`
are positive multiples of 4, every line of `encode(x, r)` except possibly the last is
bounded as follows: the first line has length at most the first-line effective threshold,
and every other line has length at most the other-lines effective threshold plus the fold
marker length. -/
theorem C4_line_length_bound (c : base64) (x : List Byte) (r : Nat)
    (h1 : c.line1_policy_ < SZ) (h2 : c.lines_policy_ < SZ)
    (hp1 : r + 2 + fold_marker_length c < c.line1_policy_)
    (hp2 : r + 2 + fold_marker_length c < c.lines_policy_)
    (hd1 : 4 ∣ c.line1_policy_ - r - 2 - fold_marker_length c)
    (hd2 : 4 ∣ c.lines_policy_ - r - 2 - fold_marker_length c)
    (i : Nat) (l : List Byte) (hi : i + 1 < (encode c x r).length)
    (hl : (encode c x r)[i]? = some l) :
    l.length ≤
      if i = 0 then c.line1_policy_ - r - 2 - fold_marker_length c
        else c.lines_policy_ - r - 2 - fold_marker_length c + fold_marker_length c := by
  obtain ⟨t1, t2⟩ := threshold_eq c r h1 h2 hp1 hp2
  have hend := aligned_encode_state c r x (by rw [t1]; exact hd1) (by rw [t2]; exact hd2)
    (by rw [t1]; omega) (by rw [t2]; omega)
  obtain ⟨h, e⟩ := result_getElem (encode_state c x r) i hi
  have hb := closedOK_bound c r (by rw [t1]; exact hd1) (by rw [t2]; exact hd2) _
    hend.closed i h
  rw [t1, t2, FOLD_STR_length] at hb
  have hl2 : (encode_state c x r).result[i]? = some l := hl
  have hi2 : i < (encode_state c x r).result.length := Nat.lt_of_succ_lt hi
  rw [List.getElem?_eq_getElem hi2, Option.some.injEq] at hl2
  rw [← hl2, e]
  exact hb

/-- C4 (amended), instances: limits 8 and 12, twelve bytes; the first line `TWFu` is
within the first-line threshold 4 and the second line, with its fold marker, within the
other-lines threshold 8 plus 2. -/
theorem C4_line_length_bound_witness :
    encode ⟨8, 12⟩ (bytes "ManManManMan") 0 =
        [bytes "TWFu", bytes "  TWFuTWFu", bytes "TWFu"] ∧
      ((bytes "TWFu").length ≤
        if 0 = 0 then 8 - 0 - 2 - fold_marker_length ⟨8, 12⟩
          else 12 - 0 - 2 - fold_marker_length ⟨8, 12⟩ + fold_marker_length ⟨8, 12⟩) ∧
      ((bytes "  TWFuTWFu").length ≤
        if 1 = 0 then 8 - 0 - 2 - fold_marker_length ⟨8, 12⟩
          else 12 - 0 - 2 - fold_marker_length ⟨8, 12⟩ + fold_marker_length ⟨8, 12⟩) :=
  ⟨by decide,
    C4_line_length_bound ⟨8, 12⟩ (bytes "ManManManMan") 0 (by norm_num [SZ])
      (by norm_num [SZ]) (by decide) (by decide) (by decide) (by decide) 0
      (bytes "TWFu") (by decide) (by decide),
    C4_line_length_bound ⟨8, 12⟩ (bytes "ManManManMan") 0 (by norm_num [SZ])
      (by norm_num [SZ]) (by decide) (by decide) (by decide) (by decide) 1
      (bytes "  TWFuTWFu") (by decide) (by decide)⟩

/-- C5: for every policy, every reserved count and every byte string, the lines of
`encode` concatenated in order, with the space characters deleted, are exactly the
standard padded base64 text of the input. -/
theorem C5_content_preserved (c : base64) (x : List Byte) (r : Nat) :
    ((encode c x r).flatten).filter (fun b => b != 32) = stdBase64 x := by
  rw [encode_flatten]
  have h := encode_loop_raw c r _ (erases_filter c) x EncState.init rfl rfl
  simpa [encode_state, EncState.raw, EncState.init] using h

/-- C6: for every policy and every reserved count, `encode` of the empty byte string is the
empty sequence of lines. -/
theorem C6_empty_input (c : base64) (r : Nat) : encode c [] r = [] := by
  simp [encode, encode_state, encode_rest, EncState.init, EncState.result]

/-- C7: for a single line within the length limit, `decode` fails with the bad-character
error naming `ch` exactly when `ch` is the first character, among those before the first
`=`, that is not a letter, a digit, `+` or `/`. -/
theorem C7_invalid_character (c : base64) (s : List Byte)
    (hlen : s.length ≤ subSz c.lines_policy_ 2) (ch : Byte) :
    decode_string c s = .error (.bad_character ch) ↔
      (s.takeWhile (fun b => b != EQUAL_CHAR)).find? (fun b => !is_allowed b) = some ch := by
  have key : ∀ e, decode_string c s = .error e ↔ decode_scan DecState.init s = .error e := by
    intro e
    simp only [decode_string, decode, decode_lines, decode_line, if_neg (Nat.not_lt.mpr hlen)]
    cases hd : decode_scan DecState.init s with
    | error e1 => simp
    | ok s1 => simp
  rw [key, decode_scan_error_iff]
  constructor
  · rintro ⟨x, hx, hx2⟩
    injection hx with hx
    rw [hx]
    exact hx2
  · intro h
    exact ⟨ch, rfl, h⟩

/-- C7, instance: `decode("QQ!=")` fails with the bad-character error naming `!`. -/
theorem C7_invalid_character_witness :
    decode_string ⟨78, 78⟩ (bytes "QQ!=") = .error (.bad_character 33) :=
  (C7_invalid_character ⟨78, 78⟩ (bytes "QQ!=") (by decide) 33).mpr (by decide)

/-- C8 (as stated, refuted): the limit 1 is a positive integer and the one-character line
`A` is longer than `1 - 2`, yet `decode` accepts it: the unsigned subtraction wraps. -/
theorem C8_counterexample :
    0 < (base64.mk 1 1).lines_policy_ ∧
      (((base64.mk 1 1).lines_policy_ : Int) - 2 < ((bytes "A").length : Int)) ∧
      decode ⟨1, 1⟩ [bytes "A"] = .ok [] := by
  decide

/-- C8 (amended): for a codec whose `other_lines_limit` is at least 2, when the lines
before `l` decode without error, a line `l` longer than `other_lines_limit - 2` makes
`decode` fail with the line-policy error (no bytes are returned), and a line `l` of at
most `other_lines_limit - 2` characters does not cause the line-policy error. -/
theorem C8_line_policy (c : base64) (pre : List (List Byte)) (l : List Byte)
    (post : List (List Byte)) (h2 : 2 ≤ c.lines_policy_) (hL : c.lines_policy_ < SZ)
    (hpre : ∃ out, decode c pre = .ok out) :
    (l.length > c.lines_policy_ - 2 →
        decode c (pre ++ l :: post) = .error .bad_line_policy) ∧
      (l.length ≤ c.lines_policy_ - 2 →
        decode c (pre ++ [l]) ≠ .error .bad_line_policy) := by
  have hlim : subSz c.lines_policy_ 2 = c.lines_policy_ - 2 := subSz_of_le hL h2
  obtain ⟨out, hout⟩ := hpre
  unfold decode at hout
  cases hp : decode_lines c DecState.init pre with
  | error e => rw [hp] at hout; simp at hout
  | ok s1 =>
    constructor
    · intro hlong
      unfold decode
      rw [decode_lines_append, hp]
      simp only [decode_lines, decode_line, hlim, if_pos hlong]
    · intro hshort
      unfold decode
      rw [decode_lines_append, hp]
      simp only [decode_lines, decode_line, hlim, if_neg (Nat.not_lt.mpr hshort)]
      cases hs : decode_scan s1 l with
      | error e =>
        obtain ⟨x, hx, -⟩ := (decode_scan_error_iff l s1 e).mp hs
        simp [hx]
      | ok s2 => simp

/-- C8 (amended), instance: limit 6, a first line of 4 characters and a second of 8. -/
theorem C8_line_policy_witness :
    decode ⟨6, 6⟩ ([bytes "TWFu"] ++ bytes "TWFuTWFu" :: []) = .error .bad_line_policy :=
  (C8_line_policy ⟨6, 6⟩ [bytes "TWFu"] (bytes "TWFuTWFu") [] (by decide)
    (by norm_num [SZ]) ⟨bytes "Man", by decide⟩).1 (by decide)

/-- C9 (the code at the failing input): with limits 8 and 12 (thresholds 4 and 8) the six
bytes `ManMan` are encoded on two lines, and the second, pushed by the final statement of
`encode`, does not begin with the fold marker. -/
theorem C9_last_line_unmarked :
    encode ⟨8, 12⟩ (bytes "ManMan") 0 = [bytes "TWFu", bytes "TWFu"] := by
  decide

/-- C10 (the code at the failing input): each of the lines `QQ` decodes on its own to the
byte 65, but the two lines together decode to four bytes, the last three computed from
the stale contents of the quad buffer. -/
theorem C10_partial_lines :
    decode_string ⟨78, 78⟩ (bytes "QQ") = .ok [65] ∧
      decode ⟨78, 78⟩ [bytes "QQ", bytes "QQ"] = .ok [65, 255, 244, 16] := by
  decide

/-- C11: for a single line within the length limit whose characters before the first `=`
are all allowed, `n` being their number, the single-string `decode` succeeds with exactly
`3 * (n / 4) + e` bytes, where `e` is 1 when `n % 4 = 2`, 2 when `n % 4 = 3` and 0
otherwise (a lone leftover symbol gives no byte and no error). -/
theorem C11_decoded_byte_count (c : base64) (s : List Byte)
    (hlen : s.length ≤ subSz c.lines_policy_ 2)
    (hal : ∀ b ∈ s.takeWhile (fun b => b != EQUAL_CHAR), is_allowed b = true) :
    ∃ out, decode_string c s = .ok out ∧
      out.length = 3 * ((s.takeWhile (fun b => b != EQUAL_CHAR)).length / 4) +
        (if (s.takeWhile (fun b => b != EQUAL_CHAR)).length % 4 = 2 then 1
          else if (s.takeWhile (fun b => b != EQUAL_CHAR)).length % 4 = 3 then 2 else 0) :=
  ⟨_, decode_string_decodeQuads c s hlen hal, decodeQuads_length _⟩

set_option maxRecDepth 100000 in
/-- C11, instance: the five characters `TWFuT` (one quad and a lone symbol) decode to the
three bytes `Man`. -/
theorem C11_decoded_byte_count_witness :
    ∃ out, decode_string ⟨78, 78⟩ (bytes "TWFuT") = .ok out ∧
      out.length = 3 * (((bytes "TWFuT").takeWhile (fun b => b != EQUAL_CHAR)).length / 4) +
        (if ((bytes "TWFuT").takeWhile (fun b => b != EQUAL_CHAR)).length % 4 = 2 then 1
          else if ((bytes "TWFuT").takeWhile (fun b => b != EQUAL_CHAR)).length % 4 = 3
            then 2 else 0) :=
  C11_decoded_byte_count ⟨78, 78⟩ (bytes "TWFuT") (by decide) (by decide)

/-- C12 (the code at the failing input): with limits 12 and 8 (thresholds 8 and 4) the
seven bytes `ManManM` are encoded on three lines; the first line is closed by the
`else if` branch at the other-lines threshold while `is_first_line` is still true, so it
holds 4 base64 characters, fewer than 8, and starts with the fold marker. -/
theorem C12_first_line_marked :
    encode ⟨12, 8⟩ (bytes "ManManM") 0 = [bytes "  TWFu", bytes "  TWFu", bytes "TQ=="] ∧
      threshold1 ⟨12, 8⟩ 0 = 8 ∧ threshold2 ⟨12, 8⟩ 0 = 4 ∧
      ((bytes "ManManM").foldl (encode_char ⟨12, 8⟩ 0) EncState.init).is_first_line = true := by
  decide

set_option maxRecDepth 100000 in
/-- C13 (as stated, refuted): with limits 8 and 12 the third group of `ManManManManMan`
makes `encode` hand the buffer `"  TWFuTWFu"` to `add_new_line`; the buffer contains spaces,
the last of them at index 1, yet the emitted line is the whole buffer and not the prefix
`"  "`, and the next line starts empty. -/
theorem C13_counterexample :
    encode_char ⟨8, 12⟩ 0 ((bytes "ManManMa").foldl (encode_char ⟨8, 12⟩ 0) EncState.init) 110
        = add_new_line true
          ⟨[bytes "TWFu"], ⟨77, 97, 110⟩, 0, bytes "  TWFuTWFu", 8, false, 0⟩ ∧
      (32 : Byte) ∈ DELIMITERS ∧ (bytes "  TWFuTWFu").take 2 = [32, 32] ∧
      (∀ b ∈ (bytes "  TWFuTWFu").drop 2, b ∉ DELIMITERS) ∧
      add_new_line true ⟨[bytes "TWFu"], ⟨77, 97, 110⟩, 0, bytes "  TWFuTWFu", 8, false, 0⟩
        = ⟨[bytes "TWFu", bytes "  TWFuTWFu"], ⟨77, 97, 110⟩, 0, [], 0, false, 0⟩ ∧
      encode ⟨8, 12⟩ (bytes "ManManManManMan") 0 =
        [bytes "TWFu", bytes "  TWFuTWFu", bytes "  TWFuTWFu"] := by
  decide

/-- C13 (amended): `delim_pos` is 0 at the start of `encode` and stays 0 through every
step; on such a state the line-break step emits the whole buffer handed to it and leaves
the line buffer empty, whether or not the buffer contains a delimiter, so every break made
by the line-closing statement emits the whole line buffer, preceded by the fold marker in
its second branch. -/
theorem C13_whole_buffer (c : base64) (r : Nat) (s : EncState) (h : s.delim_pos = 0) :
    EncState.init.delim_pos = 0 ∧
    (∀ ch, (encode_char c r s ch).delim_pos = 0) ∧
    (∀ g6 i, (encode_symbol c r g6 s i).delim_pos = 0) ∧
    (encode_pad c r s).delim_pos = 0 ∧ (encode_rest c r s).delim_pos = 0 ∧
    (∀ f, add_new_line f s =
      { s with enc_text := s.enc_text ++ [s.line], line := [], line_len := 0 }) ∧
    (break_line c r s = s ∨
      break_line c r s = { s with
        enc_text := s.enc_text ++ [s.line], line := [], line_len := 0
        is_first_line := false } ∨
      break_line c r s = { s with
        enc_text := s.enc_text ++ [FOLD_STR c ++ s.line], line := [], line_len := 0 }) := by
  refine ⟨rfl, fun ch => encode_char_delim c r s ch h,
    fun g6 i => encode_symbol_delim c r g6 s i h, encode_pad_delim c r s h,
    encode_rest_delim c r s h, fun f => add_new_line_eq f s h, ?_⟩
  rw [break_line_eq c r s h]
  split_ifs
  · exact Or.inr (Or.inl rfl)
  · exact Or.inr (Or.inr rfl)
  · exact Or.inl rfl

/-- C13 (amended), instance: the buffer `"  TWFuTWFu"` of the run with limits 8 and 12 is
emitted whole. -/
theorem C13_whole_buffer_witness :
    add_new_line true ⟨[bytes "TWFu"], ⟨77, 97, 110⟩, 0, bytes "  TWFuTWFu", 8, false, 0⟩
      = ⟨[bytes "TWFu"] ++ [bytes "  TWFuTWFu"], ⟨77, 97, 110⟩, 0, [], 0, false, 0⟩ :=
  (C13_whole_buffer ⟨8, 12⟩ 0
    ⟨[bytes "TWFu"], ⟨77, 97, 110⟩, 0, bytes "  TWFuTWFu", 8, false, 0⟩ rfl).2.2.2.2.2.1 true

/-- C14: for a single line within the length limit, `decode` gives the same result (the
same bytes or the same error) as `decode` of the prefix of the line that stops just before
its first `=`. -/
theorem C14_padding_ends_scan (c : base64) (s : List Byte)
    (hlen : s.length ≤ subSz c.lines_policy_ 2) :
    decode_string c s = decode_string c (s.takeWhile (fun b => b != EQUAL_CHAR)) := by
  have hlen2 := Nat.le_trans (takeWhile_length_le s) hlen
  simp only [decode_string, decode, decode_lines, decode_line, if_neg (Nat.not_lt.mpr hlen),
    if_neg (Nat.not_lt.mpr hlen2)]
  rw [decode_scan_takeWhile s DecState.init]

/-- C14, instance: `decode("QQ=!")` succeeds and equals `decode("QQ")`. -/
theorem C14_padding_ends_scan_witness :
    decode_string ⟨78, 78⟩ (bytes "QQ=!") = decode_string ⟨78, 78⟩ (bytes "QQ") ∧
      decode_string ⟨78, 78⟩ (bytes "QQ") = .ok [65] :=
  ⟨(C14_padding_ends_scan ⟨78, 78⟩ (bytes "QQ=!") (by decide)).trans (by decide), by decide⟩

/-- C15: for a line `s` of allowed characters with `|s| mod 4 = k`, `k` being 2 or 3, and
a limit that admits `|s| + 4 - k` characters, the single-string `decode` of `s` followed by
`4 - k` characters `A` (code 65) succeeds, and `decode` of `s` is that result with its last
`4 - k` bytes removed. -/
theorem C15_partial_quad_padding (c : base64) (s : List Byte) (k : Nat)
    (hk : k = 2 ∨ k = 3) (hmod : s.length % 4 = k) (hal : ∀ b ∈ s, is_allowed b = true)
    (hlim : s.length + (4 - k) ≤ subSz c.lines_policy_ 2) :
    ∃ out, decode_string c (s ++ List.replicate (4 - k) 65) = .ok out ∧
      decode_string c s = .ok (out.take (out.length - (4 - k))) := by
  have hA : is_allowed (65 : Byte) = true := by decide
  have hal2 : ∀ n, ∀ b ∈ s ++ List.replicate n (65 : Byte), is_allowed b = true := by
    intro n b hb
    rcases List.mem_append.mp hb with h | h
    · exact hal b h
    · rw [(List.mem_replicate.mp h).2]
      exact hA
  have hs : decode_string c s = .ok (decodeQuads s) := by
    have h := decode_string_decodeQuads c s (by omega)
      (by rw [takeWhile_of_allowed s hal]; exact hal)
    rwa [takeWhile_of_allowed s hal] at h
  have hp : decode_string c (s ++ List.replicate (4 - k) 65) =
      .ok (decodeQuads (s ++ List.replicate (4 - k) 65)) := by
    have h := decode_string_decodeQuads c (s ++ List.replicate (4 - k) 65)
      (by rw [List.length_append, List.length_replicate]; exact hlim)
      (by rw [takeWhile_of_allowed _ (hal2 _)]; exact hal2 _)
    rwa [takeWhile_of_allowed _ (hal2 _)] at h
  refine ⟨_, hp, ?_⟩
  rw [hs]
  rcases hk with hk | hk
  · subst hk
    obtain ⟨x, y, hxy⟩ := decodeQuads_pad_two 65 65 s hmod
    have e : List.replicate (4 - 2) (65 : Byte) = [65, 65] := rfl
    rw [e, hxy]
    simp
  · subst hk
    obtain ⟨x, hx⟩ := decodeQuads_pad_one 65 s hmod
    have e : List.replicate (4 - 3) (65 : Byte) = [65] := rfl
    rw [e, hx]
    simp

set_option maxRecDepth 100000 in
/-- C15, instance: `decode("TWE")` is `decode("TWEA")` without its last byte. -/
theorem C15_partial_quad_padding_witness :
    ∃ out, decode_string ⟨78, 78⟩ (bytes "TWE" ++ List.replicate (4 - 3) 65) = .ok out ∧
      decode_string ⟨78, 78⟩ (bytes "TWE") = .ok (out.take (out.length - (4 - 3))) :=
  C15_partial_quad_padding ⟨78, 78⟩ (bytes "TWE") 3 (Or.inr rfl) (by decide) (by decide)
    (by decide)

/-- C16: for a codec with equal limits, every reserved count and every input, no line of
`encode` contains a space, and every character of every line is one of the 64 characters
of `CHARSET` or the padding character `=`. -/
theorem C16_equal_limits_no_folding (L r : Nat) (x : List Byte) :
    ∀ l ∈ encode ⟨L, L⟩ x r, ∀ b ∈ l, b ≠ 32 ∧ (b ∈ CHARSET ∨ b = EQUAL_CHAR) := by
  intro l hl b hb
  apply stdBase64_mem x b
  rw [← encode_flatten_self L r x]
  exact List.mem_flatten.mpr ⟨l, hl, hb⟩

/-- C16, instance: the character `T` of the single line `TWFu` of the encoding of `Man`
with both limits 78. -/
theorem C16_equal_limits_no_folding_witness :
    bytes "TWFu" ∈ encode ⟨78, 78⟩ (bytes "Man") 0 ∧ (84 : Byte) ∈ bytes "TWFu" ∧
      ((84 : Byte) ≠ 32 ∧ ((84 : Byte) ∈ CHARSET ∨ (84 : Byte) = EQUAL_CHAR)) :=
  ⟨by decide, by decide,
    C16_equal_limits_no_folding 78 0 (bytes "Man") (bytes "TWFu") (by decide) 84 (by decide)⟩

/-- C17: for a codec with both limits `L`, `L ≥ 6` and `L - 2` divisible by 4, every line
of `encode(x, 0)` has at most `L - 2` characters, every line but the last has exactly
`L - 2` characters, and `decode` of the lines succeeds and returns `x`. -/
theorem C17_round_trip_quad_aligned (L : Nat) (x : List Byte) (hL : L < SZ) (h6 : 6 ≤ L)
    (hd : 4 ∣ L - 2) :
    (∀ l ∈ encode ⟨L, L⟩ x 0, l.length ≤ L - 2) ∧
      (∀ l ∈ (encode ⟨L, L⟩ x 0).dropLast, l.length = L - 2) ∧
      decode ⟨L, L⟩ (encode ⟨L, L⟩ x 0) = .ok x :=
  ⟨(aligned_lines_self L x hL h6 hd).1, (aligned_lines_self L x hL h6 hd).2,
    round_trip_aligned L x hL h6 hd⟩

/-- C17, instance: limit 10 and the eight bytes `ManManMa`, encoded on two lines. -/
theorem C17_round_trip_quad_aligned_witness :
    encode ⟨10, 10⟩ (bytes "ManManMa") 0 = [bytes "TWFuTWFu", bytes "TWE="] ∧
      ((∀ l ∈ encode ⟨10, 10⟩ (bytes "ManManMa") 0, l.length ≤ 10 - 2) ∧
      (∀ l ∈ (encode ⟨10, 10⟩ (bytes "ManManMa") 0).dropLast, l.length = 10 - 2) ∧
      decode ⟨10, 10⟩ (encode ⟨10, 10⟩ (bytes "ManManMa") 0) = .ok (bytes "ManManMa")) :=
  ⟨by decide,
    C17_round_trip_quad_aligned 10 (bytes "ManManMa") (by norm_num [SZ]) (by decide)
      (by decide)⟩

/-- C18: for a codec with both limits `L`, reserved `r` with `T = L - r - 2 ≥ 1`, and an
input whose padded base64 length fits in `size_type`, no line of `encode(x, r)` is empty,
and every line except the last has length at least `T` and at most `T + 3`: it is either
`4 * ceil(T / 4)` (closed after a full group) or exactly `T` (closed inside the final
partial group). -/
theorem C18_line_lengths_no_folding (L r : Nat) (x : List Byte) (hL : L < SZ)
    (hT : 1 ≤ L - r - 2) (hx : paddedLen x.length < SZ) :
    (∀ l ∈ encode ⟨L, L⟩ x r, l ≠ []) ∧
      (∀ l ∈ (encode ⟨L, L⟩ x r).dropLast,
        (L - r - 2 ≤ l.length ∧ l.length ≤ L - r - 2 + 3) ∧
        (l.length = 4 * ((L - r - 2 + 3) / 4) ∨ l.length = L - r - 2)) := by
  obtain ⟨-, t2⟩ := threshold_self L r hL (by omega)
  have hu := unfolded_encode_state L r x hL hT hx
  have hclosed : ∀ l ∈ (encode_state ⟨L, L⟩ x r).enc_text,
      l.length = 4 * ((L - r - 2 + 3) / 4) ∨ l.length = L - r - 2 := by
    intro l hl
    have := hu.closed l hl
    rwa [t2] at this
  constructor
  · intro l hl hnil
    rcases result_mem_ne _ l hl with hm | ⟨hm, hne⟩
    · have := hclosed l hm
      rw [hnil, List.length_nil] at this
      omega
    · exact hne (hm ▸ hnil)
  · intro l hl
    have := hclosed l (result_dropLast_mem _ l hl)
    exact ⟨by omega, this⟩

/-- C18, instance: both limits 9 (threshold 7) and the eleven bytes `ManManManMa`: the
first line is closed after a full group with 8 characters, the second inside the final
partial group with 7, the last holds the final `=`. -/
theorem C18_line_lengths_no_folding_witness :
    encode ⟨9, 9⟩ (bytes "ManManManMa") 0 = [bytes "TWFuTWFu", bytes "TWFuTWE", bytes "="] ∧
      ((∀ l ∈ encode ⟨9, 9⟩ (bytes "ManManManMa") 0, l ≠ []) ∧
      (∀ l ∈ (encode ⟨9, 9⟩ (bytes "ManManManMa") 0).dropLast,
        (9 - 0 - 2 ≤ l.length ∧ l.length ≤ 9 - 0 - 2 + 3) ∧
        (l.length = 4 * ((9 - 0 - 2 + 3) / 4) ∨ l.length = 9 - 0 - 2))) :=
  ⟨by decide,
    C18_line_lengths_no_folding 9 0 (bytes "ManManManMa") (by norm_num [SZ]) (by decide)
      (by norm_num [SZ, paddedLen, bytes])⟩

/-- C19: for a sequence of lines that are all within the length limit and hold only allowed
characters before their first `=`, and in which every line but the last has a number of
characters before its first `=` divisible by 4, every line decodes on its own and `decode`
of the sequence is the concatenation, in order, of the single-string decodes. -/
theorem C19_multi_line_aligned (c : base64) (lines : List (List Byte))
    (hlen : ∀ l ∈ lines, l.length ≤ subSz c.lines_policy_ 2)
    (hal : ∀ l ∈ lines, ∀ b ∈ l.takeWhile (fun b => b != EQUAL_CHAR), is_allowed b = true)
    (hq : ∀ l ∈ lines.dropLast, 4 ∣ (l.takeWhile (fun b => b != EQUAL_CHAR)).length) :
    ∃ outs : List (List Byte),
      List.Forall₂ (fun l out => decode_string c l = .ok out) lines outs ∧
      decode c lines = .ok outs.flatten := by
  refine ⟨lines.map (fun l => decodeQuads (l.takeWhile (fun b => b != EQUAL_CHAR))), ?_, ?_⟩
  · rw [List.forall₂_map_right_iff, List.forall₂_same]
    intro l hl
    exact decode_string_decodeQuads c l (hlen l hl) (hal l hl)
  · obtain ⟨s1, h1, h2⟩ := decode_lines_decodeQuads c lines [] ⟨0, 0, 0, 0⟩
      (fun l hl => ⟨hlen l hl, hal l hl⟩) hq
    unfold decode
    rw [DecState.init, h1]
    simp only
    rw [h2, List.nil_append]

set_option maxRecDepth 100000 in
/-- C19, instance: the lines `TWFu` and `TWE=` decode to `ManMa`. -/
theorem C19_multi_line_aligned_witness :
    ∃ outs : List (List Byte),
      List.Forall₂ (fun l out => decode_string ⟨78, 78⟩ l = .ok out)
        [bytes "TWFu", bytes "TWE="] outs ∧
      decode ⟨78, 78⟩ [bytes "TWFu", bytes "TWE="] = .ok outs.flatten :=
  C19_multi_line_aligned ⟨78, 78⟩ [bytes "TWFu", bytes "TWE="] (by decide) (by decide)
    (by decide)

/-- C20: in `encode` the four 6-bit values computed from any 3-byte group are below 64, the
length of `CHARSET`, and the group counter is at most 2 whenever the main loop writes to the
3-byte buffer (after any prefix of the input); in `decode` the quad counter is at most 3
whenever a character is written to the 4-symbol buffer, that is after any lines decoded
without error followed by any scanned part of the next line. -/
theorem C20_index_safety (c : base64) (r : Nat) (g : Group3) (pre : List Byte)
    (lines : List (List Byte)) (p : List Byte) (s1 s2 : DecState)
    (h1 : decode_lines c DecState.init lines = .ok s1) (h2 : decode_scan s1 p = .ok s2) :
    ((pack g).a0.val < CHARSET.length ∧ (pack g).a1.val < CHARSET.length ∧
      (pack g).a2.val < CHARSET.length ∧ (pack g).a3.val < CHARSET.length) ∧
    (pre.foldl (encode_char c r) EncState.init).count_3_chars ≤ 2 ∧
    s2.count_4_chars ≤ 3 := by
  refine ⟨?_, encode_loop_count c r pre EncState.init (Nat.zero_le _),
    decode_scan_count p s1 s2 (decode_lines_count c lines _ s1 (Nat.zero_le _) h1) h2⟩
  rw [CHARSET_length]
  exact pack_lt g

/-- C20, instance: the group `Man`, the input prefix `ManM`, and the decode state after the
line `TWFuTQ` followed by the scanned part `TW` of the next line. -/
theorem C20_index_safety_witness :
    ((pack ⟨77, 97, 110⟩).a0.val < CHARSET.length ∧
      (pack ⟨77, 97, 110⟩).a1.val < CHARSET.length ∧
      (pack ⟨77, 97, 110⟩).a2.val < CHARSET.length ∧
      (pack ⟨77, 97, 110⟩).a3.val < CHARSET.length) ∧
    ((bytes "ManM").foldl (encode_char ⟨78, 78⟩ 0) EncState.init).count_3_chars ≤ 2 ∧
    (DecState.mk [77, 97, 110, 77, 255, 244, 214] ⟨255, 255, 19, 22⟩ 0).count_4_chars ≤ 3 :=
  C20_index_safety ⟨78, 78⟩ 0 ⟨77, 97, 110⟩ (bytes "ManM") [bytes "TWFuTQ"] (bytes "TW")
    (DecState.mk [77, 97, 110, 77] ⟨19, 16, 255, 255⟩ 2)
    (DecState.mk [77, 97, 110, 77, 255, 244, 214] ⟨255, 255, 19, 22⟩ 0) (by decide) (by decide)

end mailio
